import Mathlib

/-!
# Lexical analyser: classification predicates and the line scanner

A shallow embedding of `lexer.c` (with the types of `main.h`).

Conventions of the embedding.

* A C `char` is a Lean `Char`.  The `<ctype.h>` classes are those of the "C" locale, so a
  character above 127 belongs to no class.
* A C string argument `char *str` is the list of characters found from the pointer onwards.
  Reading it is done through `peek` (the character under the pointer, `'\x00'` once the list is
  exhausted), so a list behaves as the string that ends at its first NUL, or at its end when it
  holds none.  `cstr` is that string.
* The functions of `<string.h>` used by the program (`strcmp`, `strstr`, `strchr`) are modelled
  after the C standard.
-/

namespace Lexer

/-! ## The C library -/

/-- The character under a pointer into a NUL-terminated string: `*p`. -/
def peek : List Char → Char
  | [] => '\x00'
  | c :: _ => c

/-- The string held at a pointer: the characters before the first NUL. -/
def cstr : List Char → List Char
  | [] => []
  | c :: cs => if c = '\x00' then [] else c :: cstr cs

/-- The class of decimal digits, `isdigit` of `<ctype.h>`. -/
def isdigit (c : Char) : Bool := decide ('0' ≤ c ∧ c ≤ '9')

/-- The class of letters, `isalpha` of `<ctype.h>` in the "C" locale. -/
def isalpha (c : Char) : Bool :=
  decide (('a' ≤ c ∧ c ≤ 'z') ∨ ('A' ≤ c ∧ c ≤ 'Z'))

/-- The class of letters and digits, `isalnum` of `<ctype.h>`. -/
def isalnum (c : Char) : Bool := isalpha c || isdigit c

/-- The class of hexadecimal digits, `isxdigit` of `<ctype.h>`. -/
def isxdigit (c : Char) : Bool :=
  isdigit c || decide (('a' ≤ c ∧ c ≤ 'f') ∨ ('A' ≤ c ∧ c ≤ 'F'))

/-- The class of white space, `isspace` of `<ctype.h>` in the "C" locale:
space, `\t`, `\n`, `\v`, `\f`, `\r`. -/
def isspace (c : Char) : Bool :=
  decide (c = ' ' ∨ (9 ≤ c.toNat ∧ c.toNat ≤ 13))

/-- The function `strcmp` of `<string.h>`: zero when the two strings are equal, negative or
positive after the first pair of characters that differ. -/
def strcmp : List Char → List Char → Int
  | [], [] => 0
  | [], y :: _ => if y = '\x00' then 0 else -1
  | x :: _, [] => if x = '\x00' then 0 else 1
  | x :: xs, y :: ys =>
    if x = y then (if x = '\x00' then 0 else strcmp xs ys)
    else if x < y then -1 else 1

/-- Whether the string `needle` starts at the pointer `hay` (the comparison `strstr` makes at
each position of the haystack). -/
def startsWith : List Char → List Char → Bool
  | _, [] => true
  | [], n :: _ => decide (n = '\x00')
  | h :: hs, n :: ns =>
    if n = '\x00' then true
    else if h = '\x00' then false
    else if h = n then startsWith hs ns else false

/-- The function `strstr` of `<string.h>`, as the test `strstr(hay, needle) != NULL`: the
string `needle` occurs in the string `hay`. -/
def strstr : List Char → List Char → Bool
  | [], needle => startsWith [] needle
  | h :: hs, needle =>
    if startsWith (h :: hs) needle then true
    else if h = '\x00' then false
    else strstr hs needle

/-- The function `strchr` of `<string.h>`, as the test `strchr(s, c) != NULL`: the character
`c` occurs in the string `s`, its terminating NUL included. -/
def strchr : List Char → Char → Bool
  | [], c => decide (c = '\x00')
  | x :: xs, c =>
    if x = c then true
    else if x = '\x00' then false
    else strchr xs c

/-! ## The classification predicates of `lexer.c` -/

/-- The loop `while (str[i] != '\0') { if (!isdigit(str[i])) return 0; i++; } return 1;`
of `is_integer`, from the pointer `str + i`. -/
def is_integer.loop : List Char → Bool
  | [] => true
  | c :: cs =>
    if c = '\x00' then true
    else if !isdigit c then false
    else is_integer.loop cs

/-- The function `is_integer` of `lexer.c`. -/
def is_integer (str : List Char) : Bool :=
  if peek str = '\x00' then false
  else
    let rest := if peek str = '+' ∨ peek str = '-' then str.tail else str
    if peek rest = '\x00' then false
    else is_integer.loop rest

/-- The function `is_delim` of `lexer.c`: the loop over the array `delim`. -/
def is_delim (str : List Char) : Bool :=
  [",", ";", "(", ")", "[", "]", "\x7b", "\x7d", ":"].any
    (fun d => decide (strcmp d.toList str = 0))

/-- A loop `for (...; str[i] != '\0'; i++) { if (!ok(str[i])) return 0; } return 1;`, from the
pointer `str + i`: the two loops of `is_hex_octal` and the loop of `is_identifier`. -/
def allUntilNul (ok : Char → Bool) : List Char → Bool
  | [] => true
  | c :: cs =>
    if c = '\x00' then true
    else if !ok c then false
    else allUntilNul ok cs

/-- The function `is_hex_octal` of `lexer.c`. -/
def is_hex_octal (str : List Char) : Bool :=
  if peek str = '\x00' then false
  else if peek str = '0' ∧ (peek str.tail = 'x' ∨ peek str.tail = 'X') then
    allUntilNul isxdigit (str.drop 2)
  else if peek str = '0' then
    allUntilNul (fun c => !decide (c < '0' ∨ c > '7')) (str.drop 1)
  else false

/-- The array `keywords` of `is_keyword`. -/
def keywords : List String :=
  ["char", "int", "float", "double", "signed", "unsigned", "short",
   "long", "const", "volatile", "for", "while", "do", "goto", "break",
   "continue", "if", "else", "switch", "case", "default", "auto",
   "register", "static", "extern", "struct", "union", "enum",
   "typedef", "void", "return", "sizeof"]

/-- The function `is_keyword` of `lexer.c`. -/
def is_keyword (str : List Char) : Bool :=
  keywords.any (fun k => decide (strcmp str k.toList = 0))

/-- The array `operators` of `is_operator`. -/
def operators : List String :=
  ["+", "-", "*", "/", "=", "==", "!=", "<", ">", "<=", ">=", "++",
   "--", "&&", "||", "&", "|", "^", "~", "!", "%", "<<", ">>",
   "+=", "-=", ".", "->"]

/-- The function `is_operator` of `lexer.c`. -/
def is_operator (str : List Char) : Bool :=
  operators.any (fun o => decide (strcmp str o.toList = 0))

/-- The loop of `is_real_number` from the pointer `str + i`, with the current values of
`flag` and `digit_count`; the result is the value returned. -/
def is_real_number.loop : List Char → Nat → Nat → Bool
  | [], flag, digit_count => decide (flag = 1 ∧ digit_count > 0)
  | c :: cs, flag, digit_count =>
    if c = '\x00' then decide (flag = 1 ∧ digit_count > 0)
    else if c = '.' then
      if flag + 1 > 1 then false
      else is_real_number.loop cs (flag + 1) digit_count
    else if isdigit c then is_real_number.loop cs flag (digit_count + 1)
    else false

/-- The function `is_real_number` of `lexer.c`. -/
def is_real_number (str : List Char) : Bool :=
  let rest := if peek str = '-' ∨ peek str = '+' then str.tail else str
  is_real_number.loop rest 0 0

/-- The array `preprocessors` of `is_pre_processor`. -/
def preprocessors : List String :=
  ["#include", "#define", "#undef", "#ifdef", "#ifndef",
   "#endif", "#if", "#else", "#elif", "#error", "#pragma", "#line"]

/-- The function `is_pre_processor` of `lexer.c`. -/
def is_pre_processor (str : List Char) : Bool :=
  preprocessors.any (fun p => strstr str p.toList)

/-- The function `is_identifier` of `lexer.c`. -/
def is_identifier (str : List Char) : Bool :=
  if !isalpha (peek str) ∧ peek str ≠ '_' then false
  else allUntilNul (fun c => !(!isalnum c && decide (c ≠ '_'))) (str.drop 1)

/-! ## The data of `main.h` and of `tokenize_line` -/

/-- The structure `TokenStats` of `main.h`: twelve counters of type `int`, held here as the
integers they represent, between `-2^31` and `2^31 - 1`. -/
structure TokenStats where
  keyword : Int
  identifiers : Int
  operators : Int
  integers : Int
  real_numbers : Int
  string_literals : Int
  character_literals : Int
  delimiters : Int
  preprocessor : Int
  hex_octal : Int
  single_line : Int
  multi_line : Int
deriving DecidableEq, Repr

/-- The increment `x++` of an `int` counter of `TokenStats`, on 32 bits.  At `INT_MAX` the C
standard leaves the result undefined; the model takes what the two's-complement machines do,
where `INT_MAX + 1` is `INT_MIN`. -/
def int_incr (x : Int) : Int :=
  (x + 1 + 2147483648) % 4294967296 - 2147483648

/-- The kinds of record `tokenize_line` writes to `fptr_output`, one per format string:
`is a keyword`, `is an identifier`, `is an operator`, `is an integer`, `is a real number`,
`is a hex or octal number`, `is a string literal`, `is a character literal`, `is a delimiter`,
`is a preprocessor directive`, `is a single line comment`, `is a multi-line comment` and
`is unknown`. -/
inductive TokenCategory where
  | Keyword
  | Identifier
  | Operator
  | Integer
  | RealNumber
  | HexOctal
  | StringLiteral
  | CharacterLiteral
  | Delimiter
  | PreprocessorDirective
  | SingleLineComment
  | MultiLineComment
  | Unknown
deriving DecidableEq, Repr

/-- One record of the output: the text printed for `%s` or `%c`, and the kind of record. -/
structure TokenEvent where
  lexeme : List Char
  category : TokenCategory
deriving DecidableEq, Repr

/-- What `tokenize_line` reads and writes besides its argument `line`: its five `static`
variables, the `TokenStats` behind `token_stats`, and the records written so far to
`fptr_output`. -/
structure Machine where
  buffer_multi : List Char
  m_index : Nat
  s_index : Nat
  multi_flag : Nat
  string_flag : Nat
  token_stats : TokenStats
  output : List TokenEvent
deriving DecidableEq, Repr

/-- The state before the first call: zero-initialised statics, `TokenStats token_stats = {0}`
as in `main`, and nothing written. -/
def Machine.init : Machine :=
  { buffer_multi := List.replicate 200 '\x00'
    m_index := 0
    s_index := 0
    multi_flag := 0
    string_flag := 0
    token_stats := ⟨0, 0, 0, 0, 0, 0, 0, 0, 0, 0, 0, 0⟩
    output := [] }

/-- The operations of `tokenize_line` whose effect the C language leaves undefined, or makes
depend on memory that is not part of the line; `out_of_fuel` is the exhaustion of the bound
given to the scan loop of the model. -/
inductive Fault where
  | buffer_overflow
  | token_overflow
  | line_overrun
  | out_of_fuel
deriving DecidableEq, Repr

/-- How one turn of the scan loop ends: `continue` with the pointer `line + i`, or `return`. -/
inductive Next where
  | resume (m : Machine) (line : List Char)
  | done (m : Machine)
deriving DecidableEq, Repr

/-- A call `fprintf(fptr_output, ...)` of `tokenize_line`. -/
def Machine.fprintf (m : Machine) (lexeme : List Char) (category : TokenCategory) : Machine :=
  { m with output := m.output ++ [⟨lexeme, category⟩] }

/-- The stores `buf[k++] = c` for the characters `c` of a list, in order. -/
def writeAt : List Char → Nat → List Char → List Char
  | buf, _, [] => buf
  | buf, k, c :: cs => writeAt (buf.set k c) (k + 1) cs

/-- The stores `buffer_multi[k++] = c` into the array `buffer_multi[200]`: a store at an index
of 200 or more is outside the array. -/
def store (buf : List Char) (k : Nat) (cs : List Char) : Except Fault (List Char) :=
  if k + cs.length ≤ 200 then .ok (writeAt buf k cs) else .error .buffer_overflow

/-- A loop `while (cond(line[i])) dst[j++] = line[i++];`: the characters copied and the
pointer `line + i` reached.  Every condition used is false at the terminating NUL. -/
def copyWhile (cond : Char → Bool) : List Char → List Char × List Char
  | [] => ([], [])
  | c :: cs =>
    if cond c then ((c :: (copyWhile cond cs).1), (copyWhile cond cs).2)
    else ([], c :: cs)

/-- A loop `while (cond(line[i]) && j < sizeof(token) - 1) token[j++] = line[i++];` entered
with `room = sizeof(token) - 1 - j`. -/
def copyBounded (cond : Char → Bool) : Nat → List Char → List Char × List Char
  | 0, line => ([], line)
  | _ + 1, [] => ([], [])
  | room + 1, c :: cs =>
    if cond c then ((c :: (copyBounded cond room cs).1), (copyBounded cond room cs).2)
    else ([], c :: cs)

/-- The loop `while (line[i] != '\0' && !(line[i] == '*' && line[i + 1] == '/'))
buffer_multi[m_index++] = line[i++];` of the block comment branch. -/
def copyComment : List Char → List Char × List Char
  | [] => ([], [])
  | c :: cs =>
    if c ≠ '\x00' ∧ ¬(c = '*' ∧ peek cs = '/') then
      ((c :: (copyComment cs).1), (copyComment cs).2)
    else ([], c :: cs)

/-! ## The function `tokenize_line` -/

/-- The delimiter branch: `fprintf(..., "%c is a delimiter\n", line[i]); delimiters++; i++`. -/
def delimBranch (m : Machine) (line : List Char) : Except Fault Next :=
  let m := m.fprintf [peek line] .Delimiter
  let m := { m with token_stats := { m.token_stats with delimiters := int_incr m.token_stats.delimiters } }
  .ok (.resume m line.tail)

/-- The branch of `#`: the rest of the line, up to 999 characters, is copied to `token`. -/
def preprocessorBranch (m : Machine) (line : List Char) : Except Fault Next :=
  let r := copyBounded (fun c => decide (c ≠ '\x00')) 998 line.tail
  let token := peek line :: r.1
  if is_pre_processor token then
    let m := m.fprintf token .PreprocessorDirective
    let m := { m with token_stats := { m.token_stats with preprocessor := int_incr m.token_stats.preprocessor } }
    .ok (.resume m r.2)
  else .ok (.resume m r.2)

/-- The branch taken when `line[i] == '"' || string_flag == 1`. -/
def stringBranch (m : Machine) (line : List Char) : Except Fault Next :=
  let r := copyWhile (fun c => decide (c ≠ '\"' ∧ c ≠ '\x00')) line.tail
  let copied := peek line :: r.1
  if peek r.2 = '\x00' then
    match store m.buffer_multi m.s_index copied with
    | .error f => .error f
    | .ok buf =>
      .ok (.done { m with buffer_multi := buf, s_index := m.s_index + copied.length,
                          string_flag := 1 })
  else
    match store m.buffer_multi m.s_index (copied ++ [peek r.2, '\x00']) with
    | .error f => .error f
    | .ok buf =>
      let m := { m with buffer_multi := buf, s_index := m.s_index + copied.length + 1 }
      let m := m.fprintf (cstr m.buffer_multi) .StringLiteral
      let m := { m with s_index := 0, string_flag := 0 }
      let m := { m with token_stats := { m.token_stats with string_literals := int_incr m.token_stats.string_literals } }
      .ok (.resume m r.2.tail)

/-- The branch taken when `(line[i] == '/' && line[i + 1] == '*') || multi_flag == 1`. -/
def commentBranch (m : Machine) (line : List Char) : Except Fault Next :=
  let r := copyComment line
  if peek r.2 = '\x00' then
    match store m.buffer_multi m.m_index r.1 with
    | .error f => .error f
    | .ok buf =>
      .ok (.done { m with buffer_multi := buf, m_index := m.m_index + r.1.length,
                          multi_flag := 1 })
  else
    match store m.buffer_multi m.m_index (r.1 ++ [peek r.2, peek r.2.tail, '\x00']) with
    | .error f => .error f
    | .ok buf =>
      let m := { m with buffer_multi := buf, m_index := m.m_index + r.1.length + 2 }
      let m := m.fprintf (cstr m.buffer_multi) .MultiLineComment
      let m := { m with token_stats := { m.token_stats with multi_line := int_incr m.token_stats.multi_line } }
      let m := { m with m_index := 0, multi_flag := 0 }
      .ok (.resume m r.2.tail.tail)

/-- The branch of `//`: the rest of the line is copied to `token[1000]` with no bound on `j`,
then the function returns. -/
def lineCommentBranch (m : Machine) (line : List Char) : Except Fault Next :=
  let r := copyWhile (fun c => decide (c ≠ '\x00')) line
  if r.1.length < 1000 then
    let m := m.fprintf r.1 .SingleLineComment
    let m := { m with token_stats := { m.token_stats with single_line := int_incr m.token_stats.single_line } }
    .ok (.done m)
  else .error .token_overflow

/-- The branch of a letter or underscore. -/
def identifierBranch (m : Machine) (line : List Char) : Except Fault Next :=
  let r := copyBounded (fun c => isalnum c || decide (c = '_')) 999 line
  let token := r.1
  if is_keyword token then
    let m := m.fprintf token .Keyword
    let m := { m with token_stats := { m.token_stats with keyword := int_incr m.token_stats.keyword } }
    .ok (.resume m r.2)
  else if is_identifier token then
    let m := m.fprintf token .Identifier
    let m := { m with token_stats := { m.token_stats with identifiers := int_incr m.token_stats.identifiers } }
    .ok (.resume m r.2)
  else .ok (.resume m r.2)

/-- The branch of a digit or a sign. -/
def numberBranch (m : Machine) (line : List Char) : Except Fault Next :=
  let r := copyBounded
    (fun c => decide (c ≠ '\x00') && (isalnum c || decide (c = '.') || decide (c = 'x') || decide (c = 'X')))
    998 line.tail
  let token := peek line :: r.1
  if is_real_number token then
    let m := m.fprintf token .RealNumber
    let m := { m with token_stats := { m.token_stats with real_numbers := int_incr m.token_stats.real_numbers } }
    .ok (.resume m r.2)
  else if is_integer token then
    let m := m.fprintf token .Integer
    let m := { m with token_stats := { m.token_stats with integers := int_incr m.token_stats.integers } }
    .ok (.resume m r.2)
  else if is_hex_octal token then
    let m := m.fprintf token .HexOctal
    let m := { m with token_stats := { m.token_stats with hex_octal := int_incr m.token_stats.hex_octal } }
    .ok (.resume m r.2)
  else .ok (.resume m r.2)

/-- The characters the character-literal branch copies after the opening quote, from the
pointer behind that quote, and the pointer reached. -/
def copyCharLiteral (line : List Char) : List Char × List Char :=
  let r : List Char × List Char :=
    if peek line = '\\' then
      if peek line.tail ≠ '\x00' then ([peek line, peek line.tail], line.tail.tail)
      else ([peek line], line.tail)
    else if peek line ≠ '\x00' then ([peek line], line.tail)
    else ([], line)
  if peek r.2 = Char.ofNat 39 then (r.1 ++ [peek r.2], r.2.tail) else r

/-- The branch of a single quote. -/
def charLiteralBranch (m : Machine) (line : List Char) : Except Fault Next :=
  let r := copyCharLiteral line.tail
  let token := peek line :: r.1
  let m := m.fprintf token .CharacterLiteral
  let m := { m with token_stats := { m.token_stats with character_literals := int_incr m.token_stats.character_literals } }
  .ok (.resume m r.2)

/-- The fall-through at the end of the loop body: `fprintf(..., "%c is unknown\n", line[i]);
i++`. -/
def unknownBranch (m : Machine) (line : List Char) : Except Fault Next :=
  .ok (.resume (m.fprintf [peek line] .Unknown) line.tail)

/-- The operator branch, with its fall-through to the unknown character.  After a match of the
array `op = {line[i], line[i + 1], 0}` the index moves by two; when `line[i]` is the last
character of the list, `line[i + 1]` is the terminator and the index is put behind it, where
the next test of the loop reads memory that is not part of the line. -/
def operatorBranch (m : Machine) (line : List Char) : Except Fault Next :=
  if strchr "=<>!&|+-*/%.~->^".toList (peek line) then
    let op := [peek line, peek line.tail, '\x00']
    if is_operator op then
      let m := m.fprintf (cstr op) .Operator
      let m := { m with token_stats := { m.token_stats with operators := int_incr m.token_stats.operators } }
      match line.tail with
      | [] => .error .line_overrun
      | _ :: rest => .ok (.resume m rest)
    else
      let op := [peek line, '\x00', '\x00']
      if is_operator op then
        let m := m.fprintf (cstr op) .Operator
        let m := { m with token_stats := { m.token_stats with operators := int_incr m.token_stats.operators } }
        .ok (.resume m line.tail)
      else unknownBranch m line
  else unknownBranch m line

/-- One turn of the loop `while (line[i] != '\0')` of `tokenize_line`, entered with
`line[i] != '\0'`; `line` is the pointer `line + i`. -/
def step (m : Machine) (line : List Char) : Except Fault Next :=
  if isspace (peek line) then .ok (.resume m line.tail)
  else if is_delim [peek line, '\x00'] then delimBranch m line
  else if peek line = '#' then preprocessorBranch m line
  else if peek line = '\"' ∨ m.string_flag = 1 then stringBranch m line
  else if (peek line = '/' ∧ peek line.tail = '*') ∨ m.multi_flag = 1 then commentBranch m line
  else if peek line = '/' ∧ peek line.tail = '/' then lineCommentBranch m line
  else if isalpha (peek line) ∨ peek line = '_' then identifierBranch m line
  else if isdigit (peek line) ∨ (peek line = '+' ∨ peek line = '-') then numberBranch m line
  else if peek line = Char.ofNat 39 then charLiteralBranch m line
  else operatorBranch m line

/-- The loop `while (line[i] != '\0')` of `tokenize_line`, bounded by `fuel` turns. -/
def tokenize_line.loop : Nat → Machine → List Char → Except Fault Machine
  | 0, _, _ => .error .out_of_fuel
  | fuel + 1, m, line =>
    if peek line = '\x00' then .ok m
    else
      match step m line with
      | .error f => .error f
      | .ok (.done m) => .ok m
      | .ok (.resume m rest) => tokenize_line.loop fuel m rest

/-- The function `tokenize_line` of `lexer.c`.  Every turn of its loop moves the index forward,
so one turn per character and one more for the final test are enough. -/
def tokenize_line (m : Machine) (line : List Char) : Except Fault Machine :=
  tokenize_line.loop (line.length + 1) m line

/-- The loop of `main` over the lines of the input: `tokenize_line` on each, in order. -/
def scan : Machine → List (List Char) → Except Fault Machine
  | m, [] => .ok m
  | m, line :: lines =>
    match tokenize_line m line with
    | .error f => .error f
    | .ok m => scan m lines

/-! ## The statements of the specification -/

/-- The shape the specification gives to a real-number lexeme: an optional single leading `+`
or `-`, then only decimal digits and `.`, with exactly one `.` and at least one digit. -/
def RealNumberShape (s : List Char) : Prop :=
  ∃ body, (s = body ∨ s = '+' :: body ∨ s = '-' :: body) ∧
    (∀ c ∈ body, ('0' ≤ c ∧ c ≤ '9') ∨ c = '.') ∧ body.count '.' = 1 ∧
    ∃ c ∈ body, '0' ≤ c ∧ c ≤ '9'

/-- The shape the specification gives to a hexadecimal or octal lexeme: `0x` or `0X` followed
by one or more hexadecimal digits, or `0` followed by zero or more octal digits. -/
def HexOctalShape (s : List Char) : Prop :=
  (∃ digits, digits ≠ [] ∧ (s = '0' :: 'x' :: digits ∨ s = '0' :: 'X' :: digits) ∧
    ∀ c ∈ digits, ('0' ≤ c ∧ c ≤ '9') ∨ ('a' ≤ c ∧ c ≤ 'f') ∨ ('A' ≤ c ∧ c ≤ 'F')) ∨
  (∃ digits, s = '0' :: digits ∧ ∀ c ∈ digits, '0' ≤ c ∧ c ≤ '7')

/-- An ASCII letter. -/
def IsLetter (c : Char) : Prop := ('a' ≤ c ∧ c ≤ 'z') ∨ ('A' ≤ c ∧ c ≤ 'Z')

/-- The one-character operator spellings of the specification. -/
def oneCharOperators : List String :=
  ["+", "-", "*", "/", "=", "<", ">", "&", "|", "^", "~", "!", "%", "."]

/-- The two-character operator spellings of the specification. -/
def twoCharOperators : List String :=
  ["==", "!=", "<=", ">=", "++", "--", "&&", "||", "<<", ">>", "+=", "-=", "->"]

/-- The counter of `TokenStats` that belongs to a kind of record; the unknown character has
none. -/
def TokenStats.counter (t : TokenStats) : TokenCategory → Int
  | .Keyword => t.keyword
  | .Identifier => t.identifiers
  | .Operator => t.operators
  | .Integer => t.integers
  | .RealNumber => t.real_numbers
  | .HexOctal => t.hex_octal
  | .StringLiteral => t.string_literals
  | .CharacterLiteral => t.character_literals
  | .Delimiter => t.delimiters
  | .PreprocessorDirective => t.preprocessor
  | .SingleLineComment => t.single_line
  | .MultiLineComment => t.multi_line
  | .Unknown => 0

/-- The sum of the twelve counters of `TokenStats`. -/
def TokenStats.total (t : TokenStats) : Int :=
  t.keyword + t.identifiers + t.operators + t.integers + t.real_numbers + t.string_literals +
    t.character_literals + t.delimiters + t.preprocessor + t.hex_octal + t.single_line +
    t.multi_line

/-- The number of records of a given kind in an output. -/
def occurrences (out : List TokenEvent) (c : TokenCategory) : Nat :=
  out.countP (fun e => decide (e.category = c))

/-- The value of an `int` counter after `n` increments from zero: `n` itself up to `INT_MAX`,
wrapped on 32 bits beyond. -/
def int_count (n : Nat) : Int :=
  ((n : Int) + 2147483648) % 4294967296 - 2147483648

/-- Conservation: every counter holds the number of records of its kind written so far, as an
`int` counter holds it. -/
def Machine.Conserved (m : Machine) : Prop :=
  ∀ c, c ≠ TokenCategory.Unknown → m.token_stats.counter c = int_count (occurrences m.output c)

/-- The state a turn of the loop ends in. -/
def Next.machine : Next → Machine
  | .resume m _ => m
  | .done m => m

/-- A turn of the loop that continues does so further along the line. -/
def Next.Advances (line : List Char) : Next → Prop
  | .resume _ rest => rest.length < line.length
  | .done _ => True

/-- What the order of the tests of `tokenize_line` gives a record: a hex-or-octal record has
a lexeme that `is_hex_octal` accepts and `is_integer`, tried before it, rejects; an operator
record has a lexeme that starts with neither `+` nor `-`, which the number branch takes. -/
def TokenEvent.Ordered (e : TokenEvent) : Prop :=
  (e.category = .HexOctal → is_hex_octal e.lexeme = true ∧ is_integer e.lexeme = false) ∧
  (e.category = .Operator → peek e.lexeme ≠ '+' ∧ peek e.lexeme ≠ '-')

/-- The array `token` the number branch fills from the scan position: the first character
and the characters its loop copies. -/
def numberToken (line : List Char) : List Char :=
  peek line ::
    (copyBounded
      (fun c => decide (c ≠ '\x00') &&
        (isalnum c || decide (c = '.') || decide (c = 'x') || decide (c = 'X')))
      998 line.tail).1

/-! ## Lemmas on the C library model -/

theorem cstr_eq_self {s : List Char} (h : '\x00' ∉ s) : cstr s = s := by
  induction s with
  | nil => rfl
  | cons c cs ih =>
    have hc : c ≠ '\x00' := fun e => h (by simp [e])
    have hcs : '\x00' ∉ cs := fun e => h (by simp [e])
    simp [cstr, hc, ih hcs]

theorem strcmp_eq_zero_iff (a b : List Char) : strcmp a b = 0 ↔ cstr a = cstr b := by
  induction a generalizing b with
  | nil =>
    cases b with
    | nil => simp [strcmp, cstr]
    | cons y ys => by_cases hy : y = '\x00' <;> simp [strcmp, cstr, hy]
  | cons x xs ih =>
    cases b with
    | nil => by_cases hx : x = '\x00' <;> simp [strcmp, cstr, hx]
    | cons y ys =>
      by_cases hxy : x = y
      · subst hxy
        by_cases hx : x = '\x00'
        · simp [strcmp, cstr, hx]
        · simp [strcmp, cstr, hx, ih]
      · have h1 : strcmp (x :: xs) (y :: ys) ≠ 0 := by
          simp only [strcmp, hxy, if_false]
          split <;> decide
        have h2 : cstr (x :: xs) ≠ cstr (y :: ys) := by
          by_cases hx : x = '\x00'
          · have hy : ¬ y = '\x00' := fun e => hxy (hx.trans e.symm)
            simp [cstr, hx, hy]
          · by_cases hy : y = '\x00'
            · simp [cstr, hx, hy]
            · simp [cstr, hx, hy, hxy]
        simp [h1, h2]

theorem allUntilNul_iff (ok : Char → Bool) {s : List Char} (h : '\x00' ∉ s) :
    allUntilNul ok s = true ↔ ∀ c ∈ s, ok c = true := by
  induction s with
  | nil => simp [allUntilNul]
  | cons c cs ih =>
    have hc : c ≠ '\x00' := fun e => h (by simp [e])
    have hcs : '\x00' ∉ cs := fun e => h (by simp [e])
    by_cases hok : ok c = true
    · simp [allUntilNul, hc, hok, ih hcs]
    · simp [allUntilNul, hc, hok]

theorem is_integer_loop_iff {s : List Char} (h : '\x00' ∉ s) :
    is_integer.loop s = true ↔ ∀ c ∈ s, isdigit c = true := by
  induction s with
  | nil => simp [is_integer.loop]
  | cons c cs ih =>
    have hc : c ≠ '\x00' := fun e => h (by simp [e])
    have hcs : '\x00' ∉ cs := fun e => h (by simp [e])
    by_cases hok : isdigit c = true
    · simp [is_integer.loop, hc, hok, ih hcs]
    · simp [is_integer.loop, hc, hok]

theorem isdigit_iff (c : Char) : isdigit c = true ↔ ('0' ≤ c ∧ c ≤ '9') := by
  simp [isdigit]

/-! ## The classification predicates -/

/-- The value of `is_integer` on a string that starts with a sign. -/
theorem is_integer_sign {c : Char} (cs : List Char) (hc : c = '+' ∨ c = '-') :
    is_integer (c :: cs) = (if peek cs = '\x00' then false else is_integer.loop cs) := by
  rcases hc with rfl | rfl <;> simp [is_integer, peek]

/-- The value of `is_integer` on a string that does not start with a sign. -/
theorem is_integer_nosign {c : Char} (cs : List Char) (hc : ¬(c = '+' ∨ c = '-'))
    (h0 : c ≠ '\x00') : is_integer (c :: cs) = is_integer.loop (c :: cs) := by
  simp only [not_or] at hc
  simp [is_integer, peek, hc.1, hc.2, h0]

/-- C1. For a lexeme `s` (a string, so a list without NUL), `is_integer s` is true exactly when
`s` is an optional single `+` or `-` followed by one or more decimal digits and nothing else;
`"123"` and `"+07"` are accepted, the empty string, `"12a"`, `"+"` and `"-"` are rejected. -/
theorem is_integer_iff (s : List Char) (h : '\x00' ∉ s) :
    (is_integer s = true ↔
      ∃ sign digits, s = sign ++ digits ∧ (sign = [] ∨ sign = ['+'] ∨ sign = ['-']) ∧
        digits ≠ [] ∧ ∀ c ∈ digits, '0' ≤ c ∧ c ≤ '9') ∧
    is_integer "123".toList = true ∧ is_integer "+07".toList = true ∧
    is_integer "".toList = false ∧ is_integer "12a".toList = false ∧
    is_integer "+".toList = false ∧ is_integer "-".toList = false := by
  refine ⟨?_, by decide, by decide, by decide, by decide, by decide, by decide⟩
  cases s with
  | nil =>
    constructor
    · intro hi; simp [is_integer, peek] at hi
    · rintro ⟨sign, digits, hs, -, hne, -⟩
      have := List.append_eq_nil.mp hs.symm
      exact absurd this.2 hne
  | cons c cs =>
    have hc : c ≠ '\x00' := fun e => h (by simp [e])
    have hcs : '\x00' ∉ cs := fun e => h (by simp [e])
    by_cases hsign : c = '+' ∨ c = '-'
    · have hnd : ¬('0' ≤ c ∧ c ≤ '9') := by rcases hsign with rfl | rfl <;> decide
      rw [is_integer_sign cs hsign]
      cases cs with
      | nil =>
        constructor
        · intro hi; simp [peek] at hi
        · rintro ⟨sign, digits, hs, hsg, hne, hd⟩
          rcases hsg with rfl | rfl | rfl
          · simp only [List.nil_append] at hs
            subst hs
            exact absurd (hd c (by simp)) hnd
          · simp at hs; exact absurd hs.2 hne
          · simp at hs; exact absurd hs.2 hne
      | cons d ds =>
        have hd0 : d ≠ '\x00' := fun e => hcs (by simp [e])
        simp only [peek, hd0, if_false]
        rw [is_integer_loop_iff hcs]
        constructor
        · intro hall
          refine ⟨[c], d :: ds, rfl, ?_, by simp, fun x hx => (isdigit_iff x).mp (hall x hx)⟩
          rcases hsign with rfl | rfl <;> simp
        · rintro ⟨sign, digits, hs, hsg, hne, hd⟩
          rcases hsg with rfl | rfl | rfl
          · simp only [List.nil_append] at hs
            subst hs
            exact absurd (hd c (by simp)) hnd
          · simp only [List.singleton_append, List.cons.injEq] at hs
            rw [hs.2]; exact fun x hx => (isdigit_iff x).mpr (hd x hx)
          · simp only [List.singleton_append, List.cons.injEq] at hs
            rw [hs.2]; exact fun x hx => (isdigit_iff x).mpr (hd x hx)
    · rw [is_integer_nosign cs hsign hc, is_integer_loop_iff h]
      constructor
      · intro hall
        exact ⟨[], c :: cs, rfl, Or.inl rfl, by simp, fun x hx => (isdigit_iff x).mp (hall x hx)⟩
      · rintro ⟨sign, digits, hs, hsg, hne, hd⟩
        rcases hsg with rfl | rfl | rfl
        · simp only [List.nil_append] at hs
          rw [hs]; exact fun x hx => (isdigit_iff x).mpr (hd x hx)
        · simp only [List.singleton_append, List.cons.injEq] at hs
          exact absurd (Or.inl hs.1) hsign
        · simp only [List.singleton_append, List.cons.injEq] at hs
          exact absurd (Or.inr hs.1) hsign

/-- The theorem `is_integer_iff` at the lexeme `"-42"`. -/
theorem is_integer_iff_witness :
    '\x00' ∉ "-42".toList ∧
    (is_integer "-42".toList = true ↔
      ∃ sign digits, "-42".toList = sign ++ digits ∧ (sign = [] ∨ sign = ['+'] ∨ sign = ['-']) ∧
        digits ≠ [] ∧ ∀ c ∈ digits, '0' ≤ c ∧ c ≤ '9') :=
  ⟨by decide, (is_integer_iff "-42".toList (by decide)).1⟩

/-- The loop of `is_real_number`: what it returns from given values of `flag` and
`digit_count`. -/
theorem is_real_number_loop_iff {s : List Char} (h : '\x00' ∉ s) (flag digit_count : Nat) :
    is_real_number.loop s flag digit_count = true ↔
      (∀ c ∈ s, isdigit c = true ∨ c = '.') ∧ flag + s.count '.' = 1 ∧
        0 < digit_count + s.countP isdigit := by
  induction s generalizing flag digit_count with
  | nil => simp [is_real_number.loop]
  | cons c cs ih =>
    have hc : c ≠ '\x00' := fun e => h (by simp [e])
    have hcs : '\x00' ∉ cs := fun e => h (by simp [e])
    by_cases hdot : c = '.'
    · subst hdot
      have hnd : isdigit '.' = false := by decide
      by_cases hf : flag + 1 > 1
      · simp only [is_real_number.loop, hc, if_false, if_true, hf]
        simp only [List.count_cons_self]
        constructor
        · intro hh; exact absurd hh (by simp)
        · rintro ⟨-, h1, -⟩; omega
      · simp only [is_real_number.loop, hc, if_false, if_true, hf]
        rw [ih hcs]
        simp only [List.count_cons_self, List.mem_cons, forall_eq_or_imp, or_true, true_and,
          List.countP_cons, hnd]
        constructor
        · rintro ⟨h1, h2, h3⟩; exact ⟨h1, by omega, by simpa using h3⟩
        · rintro ⟨h1, h2, h3⟩; exact ⟨h1, by omega, by simpa using h3⟩
    · have hcount : (c :: cs).count '.' = cs.count '.' := by
        rw [List.count_cons]; simp [hdot]
      by_cases hd : isdigit c = true
      · simp only [is_real_number.loop, hc, hdot, if_false, hd, if_true]
        rw [ih hcs, hcount]
        simp only [List.mem_cons, forall_eq_or_imp, hd, true_or, true_and, List.countP_cons,
          if_true]
        constructor
        · rintro ⟨h1, h2, h3⟩; exact ⟨h1, h2, by omega⟩
        · rintro ⟨h1, h2, h3⟩; exact ⟨h1, h2, by omega⟩
      · simp only [is_real_number.loop, hc, hdot, if_false, hd]
        constructor
        · intro hh; exact absurd hh (by simp)
        · rintro ⟨h1, -, -⟩
          rcases h1 c (by simp) with h' | h'
          · exact absurd h' hd
          · exact absurd h' hdot

/-- C2. For a lexeme `s`, `is_real_number s` is true exactly when `s`, after an optional single
leading `+` or `-`, consists only of decimal digits and `.`, holds exactly one `.` and at least
one digit; `"3.14"` is accepted, `"3.1.4"` and `"."` are rejected. -/
theorem is_real_number_iff (s : List Char) (h : '\x00' ∉ s) :
    (is_real_number s = true ↔ RealNumberShape s) ∧
    is_real_number "3.14".toList = true ∧ is_real_number "3.1.4".toList = false ∧
    is_real_number ".".toList = false := by
  refine ⟨?_, by decide, by decide, by decide⟩
  have key : ∀ body : List Char, '\x00' ∉ body →
      (is_real_number.loop body 0 0 = true ↔
        (∀ c ∈ body, ('0' ≤ c ∧ c ≤ '9') ∨ c = '.') ∧ body.count '.' = 1 ∧
          ∃ c ∈ body, '0' ≤ c ∧ c ≤ '9') := by
    intro body hb
    rw [is_real_number_loop_iff hb]
    simp only [isdigit_iff, Nat.zero_add, List.countP_pos_iff, isdigit_iff]
  have hshape : ∀ body : List Char, (∀ c ∈ body, ('0' ≤ c ∧ c ≤ '9') ∨ c = '.') →
      ¬(peek body = '-' ∨ peek body = '+') := by
    intro body hb
    cases body with
    | nil => simp only [peek]; decide
    | cons c cs =>
      simp only [peek]
      rintro (rfl | rfl)
      · exact absurd (hb '-' (by simp)) (by decide)
      · exact absurd (hb '+' (by simp)) (by decide)
  unfold RealNumberShape
  by_cases hsign : peek s = '-' ∨ peek s = '+'
  · have hval : is_real_number s = is_real_number.loop s.tail 0 0 := by
      simp [is_real_number, hsign]
    cases s with
    | nil => exact absurd hsign (by simp only [peek]; decide)
    | cons c cs =>
      have hcs : '\x00' ∉ cs := fun e => h (by simp [e])
      simp only [peek] at hsign
      rw [hval, List.tail_cons, key cs hcs]
      constructor
      · intro hh
        refine ⟨cs, ?_, hh⟩
        rcases hsign with rfl | rfl <;> simp
      · rintro ⟨body, hb, hrest⟩
        rcases hb with hb | hb | hb
        · subst hb
          exact absurd (by simpa [peek] using hsign) (hshape _ hrest.1)
        · simp only [List.cons.injEq] at hb
          rw [hb.2]; exact hrest
        · simp only [List.cons.injEq] at hb
          rw [hb.2]; exact hrest
  · have hval : is_real_number s = is_real_number.loop s 0 0 := by
      simp [is_real_number, hsign]
    rw [hval, key s h]
    constructor
    · intro hh; exact ⟨s, Or.inl rfl, hh⟩
    · rintro ⟨body, hb, hrest⟩
      rcases hb with hb | hb | hb
      · rw [hb]; exact hrest
      · exact absurd (by simp [hb, peek]) hsign
      · exact absurd (by simp [hb, peek]) hsign

/-- The theorem `is_real_number_iff` at the lexeme `"-0.5"`. -/
theorem is_real_number_iff_witness :
    '\x00' ∉ "-0.5".toList ∧ (is_real_number "-0.5".toList = true ↔ RealNumberShape "-0.5".toList) :=
  ⟨by decide, (is_real_number_iff "-0.5".toList (by decide)).1⟩

/-- What `is_hex_octal` accepts: `0x` or `0X` followed by any number of hexadecimal digits,
none included, or `0` followed by any number of octal digits. -/
theorem is_hex_octal_accepts (s : List Char) (h : '\x00' ∉ s) :
    is_hex_octal s = true ↔
      (∃ digits, (s = '0' :: 'x' :: digits ∨ s = '0' :: 'X' :: digits) ∧
        ∀ c ∈ digits, isxdigit c = true) ∨
      (∃ digits, s = '0' :: digits ∧ ∀ c ∈ digits, '0' ≤ c ∧ c ≤ '7') := by
  have hoct : ∀ l : List Char, '\x00' ∉ l →
      (allUntilNul (fun c => !decide (c < '0' ∨ c > '7')) l = true ↔
        ∀ c ∈ l, '0' ≤ c ∧ c ≤ '7') := by
    intro l hl
    rw [allUntilNul_iff _ hl]
    simp [not_or, not_lt]
  cases s with
  | nil =>
    constructor
    · intro hi; exact absurd hi (by decide)
    · rintro (⟨digits, hs | hs, -⟩ | ⟨digits, hs, -⟩) <;> simp at hs
  | cons c cs =>
    have hcs : '\x00' ∉ cs := fun e => h (by simp [e])
    by_cases hc : c = '0'
    · subst hc
      cases cs with
      | nil =>
        constructor
        · intro _; exact Or.inr ⟨[], rfl, by simp⟩
        · intro _; decide
      | cons d ds =>
        have hds : '\x00' ∉ ds := fun e => hcs (by simp [e])
        by_cases hd : d = 'x' ∨ d = 'X'
        · have hval : is_hex_octal ('0' :: d :: ds) = allUntilNul isxdigit ds := by
            rcases hd with rfl | rfl <;> simp [is_hex_octal, peek]
          rw [hval, allUntilNul_iff _ hds]
          constructor
          · intro hall
            refine Or.inl ⟨ds, ?_, hall⟩
            rcases hd with rfl | rfl <;> simp
          · rintro (⟨digits, hs | hs, hall⟩ | ⟨digits, hs, hall⟩)
            · simp only [List.cons.injEq, true_and] at hs
              rw [hs.2]; exact hall
            · simp only [List.cons.injEq, true_and] at hs
              rw [hs.2]; exact hall
            · simp only [List.cons.injEq, true_and] at hs
              subst hs
              have := hall d (by simp)
              rcases hd with rfl | rfl <;> exact absurd this (by decide)
        · have hval : is_hex_octal ('0' :: d :: ds) =
              allUntilNul (fun c => !decide (c < '0' ∨ c > '7')) (d :: ds) := by
            simp only [not_or] at hd
            simp [is_hex_octal, peek, hd.1, hd.2]
          rw [hval, hoct _ hcs]
          constructor
          · intro hall; exact Or.inr ⟨d :: ds, rfl, hall⟩
          · rintro (⟨digits, hs | hs, hall⟩ | ⟨digits, hs, hall⟩)
            · simp only [List.cons.injEq, true_and] at hs
              exact absurd (Or.inl hs.1) hd
            · simp only [List.cons.injEq, true_and] at hs
              exact absurd (Or.inr hs.1) hd
            · simp only [List.cons.injEq, true_and] at hs
              rw [hs]; exact hall
    · have hc0 : c ≠ '\x00' := fun e => h (by simp [e])
      have hval : is_hex_octal (c :: cs) = false := by
        simp [is_hex_octal, peek, hc, hc0]
      rw [hval]
      constructor
      · intro hi; exact absurd hi (by simp)
      · rintro (⟨digits, hs | hs, -⟩ | ⟨digits, hs, -⟩) <;>
          simp only [List.cons.injEq] at hs <;> exact absurd hs.1 hc

/-- C3. The lexemes `"0x"` and `"0X"`, a hexadecimal prefix with no digit behind it, are
accepted by `is_hex_octal` although they do not have the shape of the specification; the
examples `"0x1F"`, `"017"`, `"0"` (accepted) and `"019"` (rejected) are as specified. -/
theorem is_hex_octal_bare_prefix :
    is_hex_octal "0x".toList = true ∧ ¬ HexOctalShape "0x".toList ∧
    is_hex_octal "0X".toList = true ∧ ¬ HexOctalShape "0X".toList ∧
    is_hex_octal "0x1F".toList = true ∧ is_hex_octal "017".toList = true ∧
    is_hex_octal "0".toList = true ∧ is_hex_octal "019".toList = false := by
  refine ⟨by decide, ?_, by decide, ?_, by decide, by decide, by decide, by decide⟩
  · rintro (⟨digits, hne, hs, -⟩ | ⟨digits, hs, hd⟩)
    · rcases hs with hs | hs <;> simp at hs
      exact hne hs
    · simp at hs
      subst hs
      exact absurd (hd 'x' (by simp)) (by decide)
  · rintro (⟨digits, hne, hs, -⟩ | ⟨digits, hs, hd⟩)
    · rcases hs with hs | hs <;> simp at hs
      exact hne hs
    · simp at hs
      subst hs
      exact absurd (hd 'X' (by simp)) (by decide)

theorem isalpha_iff (c : Char) : isalpha c = true ↔ IsLetter c := by
  simp [isalpha, IsLetter]

/-- C4. For a lexeme `s`, `is_identifier s` is true exactly when `s` is not empty, its first
character is an ASCII letter or an underscore, and every later character is an ASCII letter, a
decimal digit or an underscore. -/
theorem is_identifier_iff (s : List Char) (h : '\x00' ∉ s) :
    is_identifier s = true ↔
      s ≠ [] ∧ ∃ c cs, s = c :: cs ∧ (IsLetter c ∨ c = '_') ∧
        ∀ d ∈ cs, IsLetter d ∨ ('0' ≤ d ∧ d ≤ '9') ∨ d = '_' := by
  cases s with
  | nil =>
    constructor
    · intro hi; exact absurd hi (by decide)
    · rintro ⟨hne, -⟩; exact absurd rfl hne
  | cons c cs =>
    have hcs : '\x00' ∉ cs := fun e => h (by simp [e])
    have hloop : allUntilNul (fun c => !(!isalnum c && decide (c ≠ '_'))) cs = true ↔
        ∀ d ∈ cs, IsLetter d ∨ ('0' ≤ d ∧ d ≤ '9') ∨ d = '_' := by
      rw [allUntilNul_iff _ hcs]
      apply forall_congr'
      intro d
      apply imp_congr_right
      intro _
      by_cases h1 : isalpha d = true
      · simp [isalnum, h1, (isalpha_iff d).mp h1]
      · have h1' : ¬ IsLetter d := fun e => h1 ((isalpha_iff d).mpr e)
        by_cases h2 : isdigit d = true
        · simp [isalnum, h2, (isdigit_iff d).mp h2]
        · have h2' : ¬('0' ≤ d ∧ d ≤ '9') := fun e => h2 ((isdigit_iff d).mpr e)
          simp only [Bool.not_eq_true] at h1 h2
          simp only [not_and, not_le] at h2'
          simp [isalnum, h1, h2, h1']
          intro e1 e2
          exact absurd e2 (not_le.mpr (h2' e1))
    by_cases hfirst : isalpha c = true ∨ c = '_'
    · have hval : is_identifier (c :: cs) =
          allUntilNul (fun c => !(!isalnum c && decide (c ≠ '_'))) cs := by
        rcases hfirst with h1 | h1 <;> simp [is_identifier, peek, h1]
      rw [hval, hloop]
      constructor
      · intro hall
        refine ⟨by simp, c, cs, rfl, ?_, hall⟩
        rcases hfirst with h1 | h1
        · exact Or.inl ((isalpha_iff c).mp h1)
        · exact Or.inr h1
      · rintro ⟨-, c', cs', hs, -, hall⟩
        simp only [List.cons.injEq] at hs
        rw [hs.2]; exact hall
    · have hval : is_identifier (c :: cs) = false := by
        simp only [not_or, Bool.not_eq_true] at hfirst
        simp [is_identifier, peek, hfirst.1, hfirst.2]
      rw [hval]
      constructor
      · intro hi; exact absurd hi (by simp)
      · rintro ⟨-, c', cs', hs, hc', -⟩
        simp only [List.cons.injEq] at hs
        rw [← hs.1] at hc'
        rcases hc' with h1 | h1
        · exact absurd (Or.inl ((isalpha_iff c).mpr h1)) hfirst
        · exact absurd (Or.inr h1) hfirst

/-- The theorem `is_identifier_iff` at the lexeme `"_tmp1"`. -/
theorem is_identifier_iff_witness :
    '\x00' ∉ "_tmp1".toList ∧
    (is_identifier "_tmp1".toList = true ↔
      "_tmp1".toList ≠ [] ∧ ∃ c cs, "_tmp1".toList = c :: cs ∧ (IsLetter c ∨ c = '_') ∧
        ∀ d ∈ cs, IsLetter d ∨ ('0' ≤ d ∧ d ≤ '9') ∨ d = '_') :=
  ⟨by decide, is_identifier_iff "_tmp1".toList (by decide)⟩

/-- A table lookup `strcmp(str, table[i]) == 0` succeeds exactly on the entries of the table,
when neither the string nor an entry holds a NUL. -/
theorem any_strcmp_iff (table : List String) (s : List Char) (h : '\x00' ∉ s)
    (ht : ∀ t ∈ table, '\x00' ∉ t.toList) :
    table.any (fun t => decide (strcmp s t.toList = 0)) = true ↔ String.mk s ∈ table := by
  simp only [List.any_eq_true, decide_eq_true_eq, strcmp_eq_zero_iff, cstr_eq_self h]
  constructor
  · rintro ⟨t, ht1, ht2⟩
    rw [cstr_eq_self (ht t ht1)] at ht2
    rw [ht2]; exact ht1
  · intro hm
    refine ⟨String.mk s, hm, ?_⟩
    rw [cstr_eq_self (ht _ hm)]
    rfl

/-- C5. For a lexeme `s`, `is_operator s` is true exactly when `s` is one of the 14
one-character spellings or one of the 13 two-character spellings, 27 distinct spellings in
all. -/
theorem is_operator_iff (s : List Char) (h : '\x00' ∉ s) :
    (is_operator s = true ↔
      String.mk s ∈ ["+", "-", "*", "/", "=", "<", ">", "&", "|", "^", "~", "!", "%", "."] ∨
      String.mk s ∈ ["==", "!=", "<=", ">=", "++", "--", "&&", "||", "<<", ">>", "+=", "-=", "->"]) ∧
    oneCharOperators.length = 14 ∧ (∀ o ∈ oneCharOperators, o.length = 1) ∧
    twoCharOperators.length = 13 ∧ (∀ o ∈ twoCharOperators, o.length = 2) ∧
    (oneCharOperators ++ twoCharOperators).Nodup ∧
    (oneCharOperators ++ twoCharOperators).length = 27 := by
  have hops : ∀ t ∈ operators, '\x00' ∉ t.toList := by decide
  have h1 : ∀ o ∈ operators, o ∈ oneCharOperators ∨ o ∈ twoCharOperators := by
    simp [operators, oneCharOperators, twoCharOperators]
  have h2 : ∀ o, (o ∈ oneCharOperators ∨ o ∈ twoCharOperators) → o ∈ operators := by
    intro o ho
    simp only [operators, oneCharOperators, twoCharOperators, List.mem_cons,
      List.mem_singleton, List.not_mem_nil, or_false] at ho ⊢
    rcases ho with (ho | ho | ho | ho | ho | ho | ho | ho | ho | ho | ho | ho | ho | ho) |
      (ho | ho | ho | ho | ho | ho | ho | ho | ho | ho | ho | ho | ho) <;> simp [ho]
  refine ⟨?_, by decide, by decide, by decide, by decide, ?_, by decide⟩
  · unfold is_operator
    rw [any_strcmp_iff operators s h hops]
    exact ⟨h1 _, h2 _⟩
  · simp [oneCharOperators, twoCharOperators]

/-- The theorem `is_operator_iff` at the lexeme `"->"`. -/
theorem is_operator_iff_witness :
    '\x00' ∉ "->".toList ∧
    (is_operator "->".toList = true ↔
      String.mk "->".toList ∈ ["+", "-", "*", "/", "=", "<", ">", "&", "|", "^", "~", "!", "%", "."] ∨
      String.mk "->".toList ∈ ["==", "!=", "<=", ">=", "++", "--", "&&", "||", "<<", ">>", "+=", "-=", "->"]) :=
  ⟨by decide, (is_operator_iff "->".toList (by decide)).1⟩

theorem startsWith_iff (hay needle : List Char) :
    startsWith hay needle = true ↔ cstr needle <+: cstr hay := by
  induction hay generalizing needle with
  | nil =>
    cases needle with
    | nil => simp [startsWith, cstr]
    | cons n ns => by_cases hn : n = '\x00' <;> simp [startsWith, cstr, hn]
  | cons x xs ih =>
    cases needle with
    | nil => simp [startsWith, cstr]
    | cons n ns =>
      by_cases hn : n = '\x00'
      · simp [startsWith, cstr, hn]
      · by_cases hx : x = '\x00'
        · simp [startsWith, cstr, hn, hx]
        · by_cases hxn : x = n
          · subst hxn
            simp [startsWith, cstr, hx, ih, List.cons_prefix_cons]
          · have hnx : ¬ n = x := fun e => hxn e.symm
            simp [startsWith, cstr, hn, hx, hxn, hnx, List.cons_prefix_cons]

theorem strstr_iff (hay needle : List Char) :
    strstr hay needle = true ↔ cstr needle <:+: cstr hay := by
  induction hay with
  | nil =>
    simp only [strstr, startsWith_iff, cstr]
    simp [List.prefix_nil, List.infix_nil]
  | cons x xs ih =>
    by_cases hsw : startsWith (x :: xs) needle = true
    · simp only [strstr, hsw, if_true, true_iff]
      exact ((startsWith_iff _ _).mp hsw).isInfix
    · have hnp : ¬ cstr needle <+: cstr (x :: xs) := fun e => hsw ((startsWith_iff _ _).mpr e)
      simp only [Bool.not_eq_true] at hsw
      by_cases hx : x = '\x00'
      · subst hx
        simp only [strstr, hsw, if_true, Bool.false_eq_true, if_false]
        simp only [cstr, if_true] at hnp ⊢
        simp only [List.prefix_nil] at hnp
        simp [List.infix_nil, hnp]
      · simp only [strstr, hsw, hx, if_false, Bool.false_eq_true, ih]
        simp only [cstr, hx, if_false] at hnp ⊢
        rw [List.infix_cons_iff]
        simp [hnp]

/-- C6. For a lexeme `s`, `is_pre_processor s` is true exactly when one of the twelve
directive spellings occurs in `s` as a contiguous substring, at any position; `"#iffy"` and
`"# x #define"` are accepted and `"# include"` is rejected. -/
theorem is_pre_processor_iff (s : List Char) (h : '\x00' ∉ s) :
    (is_pre_processor s = true ↔
      ∃ d ∈ ["#include", "#define", "#undef", "#ifdef", "#ifndef", "#endif", "#if", "#else",
              "#elif", "#error", "#pragma", "#line"], String.toList d <:+: s) ∧
    is_pre_processor "#iffy".toList = true ∧ is_pre_processor "# x #define".toList = true ∧
    is_pre_processor "# include".toList = false := by
  refine ⟨?_, by decide, by decide, by decide⟩
  have hd : ∀ d ∈ preprocessors, cstr d.toList = d.toList := by decide
  unfold is_pre_processor
  simp only [List.any_eq_true, strstr_iff, cstr_eq_self h]
  constructor
  · rintro ⟨d, hd1, hd2⟩
    rw [hd d hd1] at hd2
    exact ⟨d, hd1, hd2⟩
  · rintro ⟨d, hd1, hd2⟩
    refine ⟨d, hd1, ?_⟩
    rw [hd d hd1]; exact hd2

/-- The theorem `is_pre_processor_iff` at the lexeme `"#include <stdio.h>"`. -/
theorem is_pre_processor_iff_witness :
    '\x00' ∉ "#include <stdio.h>".toList ∧
    (is_pre_processor "#include <stdio.h>".toList = true ↔
      ∃ d ∈ ["#include", "#define", "#undef", "#ifdef", "#ifndef", "#endif", "#if", "#else",
              "#elif", "#error", "#pragma", "#line"],
        String.toList d <:+: "#include <stdio.h>".toList) :=
  ⟨by decide, (is_pre_processor_iff "#include <stdio.h>".toList (by decide)).1⟩

/-! ## The line scanner on given lines -/

/-- C7. From the initial state, the line `int x = 5; // init` is scanned without fault, writes
the six records keyword `int`, identifier `x`, operator `=`, integer `5`, delimiter `;`,
single line comment `// init`, in this order and no other, and leaves both continuation flags
at zero. -/
theorem tokenize_line_int_x :
    ∃ m, tokenize_line Machine.init "int x = 5; // init".toList = .ok m ∧
      m.output = [⟨"int".toList, .Keyword⟩, ⟨"x".toList, .Identifier⟩,
        ⟨"=".toList, .Operator⟩, ⟨"5".toList, .Integer⟩, ⟨";".toList, .Delimiter⟩,
        ⟨"// init".toList, .SingleLineComment⟩] ∧
      m.string_flag = 0 ∧ m.multi_flag = 0 := by
  refine ⟨_, rfl, ?_, ?_, ?_⟩ <;> decide

/-! ## The scan loop never runs out of fuel -/

theorem copyWhile_length (cond : Char → Bool) (line : List Char) :
    (copyWhile cond line).2.length ≤ line.length := by
  induction line with
  | nil => simp [copyWhile]
  | cons c cs ih =>
    by_cases hc : cond c = true
    · simp only [copyWhile, hc, if_true, List.length_cons]; omega
    · simp [copyWhile, hc]

theorem copyBounded_length (cond : Char → Bool) (room : Nat) (line : List Char) :
    (copyBounded cond room line).2.length ≤ line.length := by
  induction room generalizing line with
  | zero => simp [copyBounded]
  | succ k ih =>
    cases line with
    | nil => simp [copyBounded]
    | cons c cs =>
      by_cases hc : cond c = true
      · simp only [copyBounded, hc, if_true, List.length_cons]
        have := ih cs
        omega
      · simp [copyBounded, hc]

theorem copyComment_length (line : List Char) :
    (copyComment line).2.length ≤ line.length := by
  induction line with
  | nil => simp [copyComment]
  | cons c cs ih =>
    simp only [copyComment]
    split_ifs
    · simp only [List.length_cons]; omega
    · simp

theorem copyCharLiteral_length (line : List Char) :
    (copyCharLiteral line).2.length ≤ line.length := by
  simp only [copyCharLiteral]
  split_ifs <;> simp only [List.length_tail] <;> omega

theorem tail_length_lt {line : List Char} (h : line ≠ []) : line.tail.length < line.length := by
  cases line with
  | nil => exact absurd rfl h
  | cons c cs => simp

theorem ne_nil_of_peek {line : List Char} (h : ¬ peek line = '\x00') : line ≠ [] := by
  rintro rfl
  exact h rfl

/-- Every turn of the scan loop that continues has consumed at least one character. -/
theorem step_advances {m : Machine} {line : List Char} {n : Next}
    (hline : line ≠ []) (hn : step m line = .ok n) : n.Advances line := by
  have ht := tail_length_lt hline
  have htt : line.tail.tail.length ≤ line.tail.length := by
    rw [List.length_tail line.tail]; omega
  simp only [step] at hn
  split_ifs at hn with h1 h2 h3 h4 h5 h6 h7 h8 h9
  · simp only [Except.ok.injEq] at hn
    subst hn
    exact ht
  · simp only [delimBranch, Except.ok.injEq] at hn
    subst hn
    exact ht
  · have := copyBounded_length (fun c => decide (c ≠ '\x00')) 998 line.tail
    simp only [preprocessorBranch] at hn
    split_ifs at hn
    all_goals simp only [Except.ok.injEq] at hn
    all_goals subst hn
    all_goals simp only [Next.Advances]
    all_goals omega
  · have := copyWhile_length (fun c => decide (c ≠ '\"' ∧ c ≠ '\x00')) line.tail
    simp only [stringBranch] at hn
    split_ifs at hn
    · split at hn
      · exact absurd hn (by simp)
      · simp only [Except.ok.injEq] at hn
        subst hn
        trivial
    · split at hn
      · exact absurd hn (by simp)
      · simp only [Except.ok.injEq] at hn
        subst hn
        simp only [Next.Advances, List.length_tail]
        omega
  · have := copyComment_length line
    simp only [commentBranch] at hn
    split_ifs at hn with hp
    · split at hn
      · exact absurd hn (by simp)
      · simp only [Except.ok.injEq] at hn
        subst hn
        trivial
    · split at hn
      · exact absurd hn (by simp)
      · simp only [Except.ok.injEq] at hn
        subst hn
        have := tail_length_lt (ne_nil_of_peek hp)
        simp only [Next.Advances, List.length_tail] at this ⊢
        omega
  · simp only [lineCommentBranch] at hn
    split_ifs at hn
    simp only [Except.ok.injEq] at hn
    subst hn
    trivial
  · have hlen : (copyBounded (fun c => isalnum c || decide (c = '_')) 999 line).2.length <
        line.length := by
      cases line with
      | nil => exact absurd rfl hline
      | cons c cs =>
        have hc : (isalnum c || decide (c = '_')) = true := by
          simp only [peek] at h7
          rcases h7 with h7 | h7
          · simp [isalnum, h7]
          · simp [h7]
        have := copyBounded_length (fun c => isalnum c || decide (c = '_')) 998 cs
        simp only [copyBounded, hc, if_true, List.length_cons]
        omega
    simp only [identifierBranch] at hn
    split_ifs at hn
    all_goals simp only [Except.ok.injEq] at hn
    all_goals subst hn
    all_goals exact hlen
  · have := copyBounded_length
      (fun c => decide (c ≠ '\x00') &&
        (isalnum c || decide (c = '.') || decide (c = 'x') || decide (c = 'X'))) 998 line.tail
    simp only [numberBranch] at hn
    split_ifs at hn
    all_goals simp only [Except.ok.injEq] at hn
    all_goals subst hn
    all_goals simp only [Next.Advances]
    all_goals omega
  · have := copyCharLiteral_length line.tail
    simp only [charLiteralBranch, Except.ok.injEq] at hn
    subst hn
    simp only [Next.Advances]
    omega
  · simp only [operatorBranch, unknownBranch] at hn
    split_ifs at hn
    · split at hn
      · exact absurd hn (by simp)
      · rename_i c rest htail
        simp only [Except.ok.injEq] at hn
        subst hn
        simp only [Next.Advances]
        rw [htail] at ht
        simp only [List.length_cons] at ht
        omega
    all_goals simp only [Except.ok.injEq] at hn
    all_goals subst hn
    all_goals exact ht

theorem store_fault {buf : List Char} {k : Nat} {cs : List Char} {f : Fault}
    (h : store buf k cs = .error f) : f = .buffer_overflow := by
  simp only [store] at h
  split_ifs at h
  simp only [Except.error.injEq] at h
  exact h.symm

theorem preprocessorBranch_fault {m : Machine} {line : List Char} {f : Fault}
    (h : preprocessorBranch m line = .error f) : f ≠ .out_of_fuel := by
  simp only [preprocessorBranch] at h
  split_ifs at h

theorem identifierBranch_fault {m : Machine} {line : List Char} {f : Fault}
    (h : identifierBranch m line = .error f) : f ≠ .out_of_fuel := by
  simp only [identifierBranch] at h
  split_ifs at h

theorem numberBranch_fault {m : Machine} {line : List Char} {f : Fault}
    (h : numberBranch m line = .error f) : f ≠ .out_of_fuel := by
  simp only [numberBranch] at h
  split_ifs at h

theorem stringBranch_fault {m : Machine} {line : List Char} {f : Fault}
    (h : stringBranch m line = .error f) : f ≠ .out_of_fuel := by
  simp only [stringBranch] at h
  split_ifs at h
  all_goals split at h
  all_goals first
    | (rename_i hs
       simp only [Except.error.injEq] at h
       subst h
       rw [store_fault hs]
       decide)
    | simp at h

theorem commentBranch_fault {m : Machine} {line : List Char} {f : Fault}
    (h : commentBranch m line = .error f) : f ≠ .out_of_fuel := by
  simp only [commentBranch] at h
  split_ifs at h
  all_goals split at h
  all_goals first
    | (rename_i hs
       simp only [Except.error.injEq] at h
       subst h
       rw [store_fault hs]
       decide)
    | simp at h

theorem lineCommentBranch_fault {m : Machine} {line : List Char} {f : Fault}
    (h : lineCommentBranch m line = .error f) : f ≠ .out_of_fuel := by
  simp only [lineCommentBranch] at h
  split_ifs at h
  simp only [Except.error.injEq] at h
  subst h
  decide

theorem operatorBranch_fault {m : Machine} {line : List Char} {f : Fault}
    (h : operatorBranch m line = .error f) : f ≠ .out_of_fuel := by
  simp only [operatorBranch, unknownBranch] at h
  split_ifs at h
  split at h
  · simp only [Except.error.injEq] at h
    subst h
    decide
  · exact absurd h (by simp)

/-- A turn of the scan loop has no fault of fuel: its faults are those of the program. -/
theorem step_fault {m : Machine} {line : List Char} {f : Fault}
    (h : step m line = .error f) : f ≠ .out_of_fuel := by
  simp only [step] at h
  split_ifs at h
  · simp [delimBranch] at h
  · exact preprocessorBranch_fault h
  · exact stringBranch_fault h
  · exact commentBranch_fault h
  · exact lineCommentBranch_fault h
  · exact identifierBranch_fault h
  · exact numberBranch_fault h
  · simp [charLiteralBranch] at h
  · exact operatorBranch_fault h

/-- With more fuel than the line has characters the loop of `tokenize_line` does not run
out of fuel. -/
theorem loop_fuel (fuel : Nat) (m : Machine) (line : List Char) (h : line.length < fuel) :
    tokenize_line.loop fuel m line ≠ .error .out_of_fuel := by
  induction fuel generalizing m line with
  | zero => omega
  | succ k ih =>
    unfold tokenize_line.loop
    split_ifs with hp
    · simp
    · split
      · rename_i f hstep
        intro hf
        simp only [Except.error.injEq] at hf
        exact step_fault hstep hf
      · simp
      · rename_i m1 rest hstep
        have := step_advances (ne_nil_of_peek hp) hstep
        simp only [Next.Advances] at this
        exact ih m1 rest (by omega)

/-- The function `tokenize_line` always returns within its fuel: it ends with a state or with
one of the faults of the program. -/
theorem tokenize_line_fuel (m : Machine) (line : List Char) :
    tokenize_line m line ≠ .error .out_of_fuel :=
  loop_fuel _ m line (Nat.lt_succ_self _)

/-! ## Conservation of the counters -/

theorem occurrences_append (out : List TokenEvent) (e : TokenEvent) (c : TokenCategory) :
    occurrences (out ++ [e]) c = occurrences out c + (if e.category = c then 1 else 0) := by
  simp [occurrences, List.countP_append, List.countP_cons]

/-- One more increment of an `int` counter. -/
theorem int_incr_int_count (n : Nat) : int_incr (int_count n) = int_count (n + 1) := by
  simp only [int_incr, int_count, Nat.cast_add, Nat.cast_one]
  omega

/-- Up to `INT_MAX` an `int` counter holds the number of its increments. -/
theorem int_count_of_le (n : Nat) (h : n ≤ 2147483647) : int_count n = n := by
  simp only [int_count]
  omega

/-- The unknown character: a record and no counter. -/
theorem conserved_unknown {m : Machine} (h : m.Conserved) (lexeme : List Char) :
    (m.fprintf lexeme .Unknown).Conserved := by
  intro c hc
  have hm := h c hc
  have hne : ¬ TokenCategory.Unknown = c := fun e => hc e.symm
  simp only [Machine.fprintf, occurrences_append, hne, if_false, Nat.add_zero]
  exact hm

theorem delimBranch_conserved {m : Machine} {line : List Char} {n : Next}
    (h : m.Conserved) (hn : delimBranch m line = .ok n) : n.machine.Conserved := by
  simp only [delimBranch, Except.ok.injEq] at hn
  subst hn
  intro c hc
  have hm := h c hc
  cases c <;>
    simp_all [Next.machine, Machine.fprintf, occurrences_append, TokenStats.counter,
        int_incr_int_count]

theorem preprocessorBranch_conserved {m : Machine} {line : List Char} {n : Next}
    (h : m.Conserved) (hn : preprocessorBranch m line = .ok n) : n.machine.Conserved := by
  simp only [preprocessorBranch] at hn
  split_ifs at hn
  all_goals simp only [Except.ok.injEq] at hn
  all_goals subst hn
  all_goals
    intro c hc
    have hm := h c hc
    cases c <;>
      simp_all [Next.machine, Machine.fprintf, occurrences_append, TokenStats.counter,
        int_incr_int_count]

theorem identifierBranch_conserved {m : Machine} {line : List Char} {n : Next}
    (h : m.Conserved) (hn : identifierBranch m line = .ok n) : n.machine.Conserved := by
  simp only [identifierBranch] at hn
  split_ifs at hn
  all_goals simp only [Except.ok.injEq] at hn
  all_goals subst hn
  all_goals
    intro c hc
    have hm := h c hc
    cases c <;>
      simp_all [Next.machine, Machine.fprintf, occurrences_append, TokenStats.counter,
        int_incr_int_count]

theorem numberBranch_conserved {m : Machine} {line : List Char} {n : Next}
    (h : m.Conserved) (hn : numberBranch m line = .ok n) : n.machine.Conserved := by
  simp only [numberBranch] at hn
  split_ifs at hn
  all_goals simp only [Except.ok.injEq] at hn
  all_goals subst hn
  all_goals
    intro c hc
    have hm := h c hc
    cases c <;>
      simp_all [Next.machine, Machine.fprintf, occurrences_append, TokenStats.counter,
        int_incr_int_count]

theorem lineCommentBranch_conserved {m : Machine} {line : List Char} {n : Next}
    (h : m.Conserved) (hn : lineCommentBranch m line = .ok n) : n.machine.Conserved := by
  simp only [lineCommentBranch] at hn
  split_ifs at hn
  all_goals simp only [Except.ok.injEq] at hn
  all_goals subst hn
  all_goals
    intro c hc
    have hm := h c hc
    cases c <;>
      simp_all [Next.machine, Machine.fprintf, occurrences_append, TokenStats.counter,
        int_incr_int_count]

theorem stringBranch_conserved {m : Machine} {line : List Char} {n : Next}
    (h : m.Conserved) (hn : stringBranch m line = .ok n) : n.machine.Conserved := by
  simp only [stringBranch] at hn
  split_ifs at hn
  · split at hn
    · exact absurd hn (by simp)
    · simp only [Except.ok.injEq] at hn
      subst hn
      exact h
  · split at hn
    · exact absurd hn (by simp)
    · simp only [Except.ok.injEq] at hn
      subst hn
      intro c hc
      have hm := h c hc
      cases c <;>
        simp_all [Next.machine, Machine.fprintf, occurrences_append, TokenStats.counter,
        int_incr_int_count]

theorem commentBranch_conserved {m : Machine} {line : List Char} {n : Next}
    (h : m.Conserved) (hn : commentBranch m line = .ok n) : n.machine.Conserved := by
  simp only [commentBranch] at hn
  split_ifs at hn
  · split at hn
    · exact absurd hn (by simp)
    · simp only [Except.ok.injEq] at hn
      subst hn
      exact h
  · split at hn
    · exact absurd hn (by simp)
    · simp only [Except.ok.injEq] at hn
      subst hn
      intro c hc
      have hm := h c hc
      cases c <;>
        simp_all [Next.machine, Machine.fprintf, occurrences_append, TokenStats.counter,
        int_incr_int_count]

theorem charLiteralBranch_conserved {m : Machine} {line : List Char} {n : Next}
    (h : m.Conserved) (hn : charLiteralBranch m line = .ok n) : n.machine.Conserved := by
  simp only [charLiteralBranch, Except.ok.injEq] at hn
  subst hn
  intro c hc
  have hm := h c hc
  cases c <;>
    simp_all [Next.machine, Machine.fprintf, occurrences_append, TokenStats.counter,
        int_incr_int_count]

theorem unknownBranch_conserved {m : Machine} {line : List Char} {n : Next}
    (h : m.Conserved) (hn : unknownBranch m line = .ok n) : n.machine.Conserved := by
  simp only [unknownBranch, Except.ok.injEq] at hn
  subst hn
  exact conserved_unknown h _

theorem operatorBranch_conserved {m : Machine} {line : List Char} {n : Next}
    (h : m.Conserved) (hn : operatorBranch m line = .ok n) : n.machine.Conserved := by
  simp only [operatorBranch] at hn
  split_ifs at hn
  · split at hn
    · exact absurd hn (by simp)
    · simp only [Except.ok.injEq] at hn
      subst hn
      intro c hc
      have hm := h c hc
      cases c <;>
        simp_all [Next.machine, Machine.fprintf, occurrences_append, TokenStats.counter,
        int_incr_int_count]
  · simp only [Except.ok.injEq] at hn
    subst hn
    intro c hc
    have hm := h c hc
    cases c <;>
      simp_all [Next.machine, Machine.fprintf, occurrences_append, TokenStats.counter,
        int_incr_int_count]
  · exact unknownBranch_conserved h hn
  · exact unknownBranch_conserved h hn

/-- A turn of the scan loop keeps the counters and the output in step. -/
theorem step_conserved {m : Machine} {line : List Char} {n : Next}
    (h : m.Conserved) (hn : step m line = .ok n) : n.machine.Conserved := by
  unfold step at hn
  split_ifs at hn
  · simp only [Except.ok.injEq] at hn
    subst hn
    exact h
  · exact delimBranch_conserved h hn
  · exact preprocessorBranch_conserved h hn
  · exact stringBranch_conserved h hn
  · exact commentBranch_conserved h hn
  · exact lineCommentBranch_conserved h hn
  · exact identifierBranch_conserved h hn
  · exact numberBranch_conserved h hn
  · exact charLiteralBranch_conserved h hn
  · exact operatorBranch_conserved h hn

theorem loop_conserved (fuel : Nat) {m n : Machine} {line : List Char}
    (h : m.Conserved) (hn : tokenize_line.loop fuel m line = .ok n) : n.Conserved := by
  induction fuel generalizing m line with
  | zero => simp [tokenize_line.loop] at hn
  | succ k ih =>
    unfold tokenize_line.loop at hn
    split_ifs at hn
    · simp only [Except.ok.injEq] at hn
      subst hn
      exact h
    · split at hn
      · exact absurd hn (by simp)
      · rename_i m1 hstep
        simp only [Except.ok.injEq] at hn
        subst hn
        exact step_conserved h hstep
      · rename_i m1 rest hstep
        exact ih (step_conserved h hstep) hn

theorem tokenize_line_conserved {m n : Machine} {line : List Char}
    (h : m.Conserved) (hn : tokenize_line m line = .ok n) : n.Conserved :=
  loop_conserved _ h hn

theorem scan_conserved (lines : List (List Char)) {m n : Machine}
    (h : m.Conserved) (hn : scan m lines = .ok n) : n.Conserved := by
  induction lines generalizing m with
  | nil =>
    simp only [scan, Except.ok.injEq] at hn
    subst hn
    exact h
  | cons line lines ih =>
    unfold scan at hn
    split at hn
    · exact absurd hn (by simp)
    · rename_i m1 hline
      exact ih (tokenize_line_conserved h hline) hn

/-- The records that are not unknown characters are those of the twelve counted kinds. -/
theorem occurrences_sum (out : List TokenEvent) :
    occurrences out .Keyword + occurrences out .Identifier + occurrences out .Operator +
      occurrences out .Integer + occurrences out .RealNumber + occurrences out .StringLiteral +
      occurrences out .CharacterLiteral + occurrences out .Delimiter +
      occurrences out .PreprocessorDirective + occurrences out .HexOctal +
      occurrences out .SingleLineComment + occurrences out .MultiLineComment =
    (out.filter (fun e => decide (e.category ≠ .Unknown))).length := by
  induction out with
  | nil => simp [occurrences]
  | cons e es ih =>
    rcases e with ⟨lexeme, category⟩
    simp only [occurrences] at ih ⊢
    cases category <;> simp [List.countP_cons, List.filter_cons] at ih ⊢ <;> omega

theorem init_conserved : Machine.init.Conserved := by
  intro c _
  cases c <;> rfl

/-- The scan of the one-character line `;` from any state: one delimiter record and one
increment of the counter `delimiters`. -/
theorem tokenize_line_semicolon (m : Machine) :
    tokenize_line m [';'] =
      .ok { m with
            output := m.output ++ [⟨[';'], .Delimiter⟩],
            token_stats :=
              { m.token_stats with delimiters := int_incr m.token_stats.delimiters } } := by
  have h1 : isspace ';' = false := by decide
  have h2 : is_delim [';', '\x00'] = true := by decide
  have h3 : ¬ (';' = '\x00') := by decide
  simp [tokenize_line, tokenize_line.loop, step, delimBranch, peek, Machine.fprintf, h1, h2, h3]

/-- The scan of `n` lines `;` from any state: `n` delimiter records. -/
theorem scan_semicolons (n : Nat) (m : Machine) :
    ∃ m', scan m (List.replicate n [';']) = .ok m' ∧
      m'.output = m.output ++ List.replicate n ⟨[';'], .Delimiter⟩ := by
  induction n generalizing m with
  | zero => exact ⟨m, rfl, by simp⟩
  | succ k ih =>
    obtain ⟨m', h1, h2⟩ := ih
      { m with
        output := m.output ++ [⟨[';'], .Delimiter⟩],
        token_stats :=
          { m.token_stats with delimiters := int_incr m.token_stats.delimiters } }
    refine ⟨m', ?_, ?_⟩
    · simp only [List.replicate_succ, scan, tokenize_line_semicolon]
      exact h1
    · rw [h2]
      simp [List.replicate_succ]

/-- The records of one kind in an output made of `n` copies of one record. -/
theorem occurrences_replicate (n : Nat) (e : TokenEvent) (c : TokenCategory) :
    occurrences (List.replicate n e) c = if e.category = c then n else 0 := by
  induction n with
  | zero => simp [occurrences]
  | succ k ih =>
    simp only [occurrences] at ih
    by_cases hc : e.category = c
    · simp only [hc, if_true] at ih
      simp [occurrences, List.replicate_succ, List.countP_cons, hc, ih]
    · simp only [hc, if_false] at ih
      simp [occurrences, List.replicate_succ, List.countP_cons, hc, ih]

/-- C9 as stated fails: after the scan of `2^31` lines `;` from the initial state, `2^31`
records have been written, none of them an unknown character, while the counter `delimiters`,
an `int`, cannot hold that number: it has wrapped to `-2^31`, the other counters are zero, and
the sum of the twelve counters is `-2^31`. -/
theorem counter_overflow :
    ∃ m, scan Machine.init (List.replicate 2147483648 [';']) = .ok m ∧
      (m.output.filter (fun e => decide (e.category ≠ .Unknown))).length = 2147483648 ∧
      m.token_stats.delimiters = -2147483648 ∧
      m.token_stats.total = -2147483648 ∧
      m.token_stats.total ≠
        ((m.output.filter (fun e => decide (e.category ≠ .Unknown))).length : Int) := by
  obtain ⟨m, hscan, hout⟩ := scan_semicolons 2147483648 Machine.init
  have hout' : m.output = List.replicate 2147483648 ⟨[';'], .Delimiter⟩ := by
    rw [hout]; rfl
  have hc := scan_conserved _ init_conserved hscan
  have hlen : (m.output.filter (fun e => decide (e.category ≠ .Unknown))).length =
      2147483648 := by
    rw [← occurrences_sum, hout']
    simp only [occurrences_replicate]
    simp
  have hz : int_count 0 = 0 := by decide
  have hN : int_count 2147483648 = -2147483648 := by decide
  have h1 := hc .Keyword (by decide)
  have h2 := hc .Identifier (by decide)
  have h3 := hc .Operator (by decide)
  have h4 := hc .Integer (by decide)
  have h5 := hc .RealNumber (by decide)
  have h6 := hc .StringLiteral (by decide)
  have h7 := hc .CharacterLiteral (by decide)
  have h8 := hc .Delimiter (by decide)
  have h9 := hc .PreprocessorDirective (by decide)
  have h10 := hc .HexOctal (by decide)
  have h11 := hc .SingleLineComment (by decide)
  have h12 := hc .MultiLineComment (by decide)
  rw [hout'] at h1 h2 h3 h4 h5 h6 h7 h8 h9 h10 h11 h12
  simp only [TokenStats.counter, occurrences_replicate, if_true, hz, hN,
    reduceCtorEq, if_false] at h1 h2 h3 h4 h5 h6 h7 h8 h9 h10 h11 h12
  have htot : m.token_stats.total = -2147483648 := by
    simp only [TokenStats.total, h1, h2, h3, h4, h5, h6, h7, h8, h9, h10, h11, h12]
    norm_num
  refine ⟨m, hscan, hlen, h8, htot, ?_⟩
  rw [htot, hlen]
  norm_num

/-- C9. After any sequence of lines scanned from the initial state without fault, every counter
of `TokenStats` holds the number of records of its own kind that were written, as an `int`
counter holds it (no counter for the unknown character).  When at most `INT_MAX = 2^31 - 1`
records of each kind were written, every counter equals that number, and the sum of the twelve
counters is the number of records that are not unknown characters. -/
theorem scan_conservation (lines : List (List Char)) (m : Machine)
    (h : scan Machine.init lines = .ok m)
    (hb : ∀ c, c ≠ TokenCategory.Unknown →
      m.output.countP (fun e => decide (e.category = c)) ≤ 2147483647) :
    (∀ c, c ≠ TokenCategory.Unknown →
      m.token_stats.counter c =
        int_count (m.output.countP (fun e => decide (e.category = c)))) ∧
    m.token_stats.total =
      ((m.output.filter (fun e => decide (e.category ≠ .Unknown))).length : Int) ∧
    ∀ c, c ≠ TokenCategory.Unknown →
      m.token_stats.counter c = (m.output.countP (fun e => decide (e.category = c)) : Int) := by
  have hc := scan_conserved lines init_conserved h
  have hexact : ∀ c, c ≠ TokenCategory.Unknown →
      m.token_stats.counter c = (occurrences m.output c : Int) := by
    intro c hne
    rw [hc c hne]
    exact int_count_of_le _ (hb c hne)
  refine ⟨hc, ?_, hexact⟩
  rw [← occurrences_sum]
  have h1 := hexact .Keyword (by decide)
  have h2 := hexact .Identifier (by decide)
  have h3 := hexact .Operator (by decide)
  have h4 := hexact .Integer (by decide)
  have h5 := hexact .RealNumber (by decide)
  have h6 := hexact .StringLiteral (by decide)
  have h7 := hexact .CharacterLiteral (by decide)
  have h8 := hexact .Delimiter (by decide)
  have h9 := hexact .PreprocessorDirective (by decide)
  have h10 := hexact .HexOctal (by decide)
  have h11 := hexact .SingleLineComment (by decide)
  have h12 := hexact .MultiLineComment (by decide)
  simp only [TokenStats.counter] at h1 h2 h3 h4 h5 h6 h7 h8 h9 h10 h11 h12
  simp only [TokenStats.total]
  omega

/-- The theorem `scan_conservation` on the two lines `x = 1; @` and `/* c */ 'a'`: seven
records, one of them an unknown character, and counters that sum to six. -/
theorem scan_conservation_witness :
    ∃ m, scan Machine.init ["x = 1; @".toList, "/* c */ 'a'".toList] = .ok m ∧
      (∀ c, c ≠ TokenCategory.Unknown →
        m.output.countP (fun e => decide (e.category = c)) ≤ 2147483647) ∧
      ((∀ c, c ≠ TokenCategory.Unknown →
        m.token_stats.counter c =
          int_count (m.output.countP (fun e => decide (e.category = c)))) ∧
      m.token_stats.total =
        ((m.output.filter (fun e => decide (e.category ≠ .Unknown))).length : Int) ∧
      ∀ c, c ≠ TokenCategory.Unknown →
        m.token_stats.counter c =
          (m.output.countP (fun e => decide (e.category = c)) : Int)) ∧
      m.output.length = 7 ∧ m.token_stats.total = 6 :=
  ⟨_, rfl, by intro c _; cases c <;> decide,
    scan_conservation ["x = 1; @".toList, "/* c */ 'a'".toList] _ rfl
      (by intro c _; cases c <;> decide),
    by decide, by decide⟩

/-! ## Continuation across lines -/

/-- C8. On the three lines `/* a`, `(b`, `c */` (a block comment opened on the first and closed
on the third), scanned from the initial state: the first line writes nothing and leaves the
comment pending; the second line, inside the comment, writes a delimiter record for `(`; the
third line writes the multi-line comment record with the lexeme `/* abc */`, which is not the
text of the three lines.  Only the third line contains `*/`. -/
theorem block_comment_three_lines :
    ∃ m1 m2 m3,
      tokenize_line Machine.init "/* a".toList = .ok m1 ∧ m1.output = [] ∧ m1.multi_flag = 1 ∧
      tokenize_line m1 "(b".toList = .ok m2 ∧ m2.output = [⟨"(".toList, .Delimiter⟩] ∧
      tokenize_line m2 "c */".toList = .ok m3 ∧
      m3.output = [⟨"(".toList, .Delimiter⟩, ⟨"/* abc */".toList, .MultiLineComment⟩] ∧
      "/* abc */".toList ≠ "/* a".toList ++ "(b".toList ++ "c */".toList ∧
      ¬ "*/".toList <:+: "/* a".toList ∧ ¬ "*/".toList <:+: "(b".toList ∧
      "*/".toList <:+: "c */".toList := by
  refine ⟨_, _, _, rfl, ?_, ?_, rfl, ?_, rfl, ?_, ?_, ?_, ?_, ?_⟩ <;> decide

/-- C10. On the two lines `/* a` and `"b`, scanned from the initial state, the first line
leaves the block comment pending and the second, which opens a string inside that comment,
leaves the string pending as well: both continuation flags are then active. -/
theorem both_flags_active :
    ∃ m1 m2,
      tokenize_line Machine.init "/* a".toList = .ok m1 ∧
      m1.string_flag = 0 ∧ m1.multi_flag = 1 ∧
      tokenize_line m1 ('\"' :: "b".toList) = .ok m2 ∧
      m2.string_flag = 1 ∧ m2.multi_flag = 1 := by
  refine ⟨_, _, rfl, ?_, ?_, rfl, ?_, ?_⟩ <;> decide

/-! ## Bounds of the buffers -/

set_option maxRecDepth 100000 in
/-- C11. A string literal of 200 characters on one line (a double quote, 198 letters `a`, a
double quote) makes `tokenize_line` store outside `buffer_multi[200]`: the terminating NUL goes
to index 200.  With one letter less the literal has 199 characters and is written as one
record. -/
theorem string_literal_overflow :
    tokenize_line Machine.init ('\"' :: (List.replicate 198 'a' ++ ['\"'])) =
      .error .buffer_overflow ∧
    ('\"' :: (List.replicate 198 'a' ++ ['\"'])).length = 200 ∧
    ∃ m, tokenize_line Machine.init ('\"' :: (List.replicate 197 'a' ++ ['\"'])) = .ok m ∧
      m.output = [⟨'\"' :: (List.replicate 197 'a' ++ ['\"']), .StringLiteral⟩] := by
  refine ⟨?_, ?_, _, rfl, ?_⟩
  · rfl
  · rfl
  · rfl

/-! ## Further evaluations of the predicates and of the scanner -/

/-- C13 as stated fails: `is_real_number(".5")` is not false. -/
theorem is_real_number_dot5_not_false : ¬ (is_real_number ".5".toList = false) := by
  decide

/-- C13. The lexeme `".5"` has one `.` and one digit, the shape of a real-number lexeme, and
`is_real_number` returns true on it. -/
theorem is_real_number_dot5 :
    is_real_number ".5".toList = true ∧ RealNumberShape ".5".toList := by
  refine ⟨by decide, ".5".toList, Or.inl rfl, ?_, by decide, '5', by decide, by decide⟩
  decide

/-- C16. From the initial state, the line `a+5` is scanned without fault and writes exactly
the records identifier `a` and integer `+5`: the sign starts a number and no operator record
is written. -/
theorem tokenize_line_a_plus_5 :
    ∃ m, tokenize_line Machine.init "a+5".toList = .ok m ∧
      m.output = [⟨"a".toList, .Identifier⟩, ⟨"+5".toList, .Integer⟩] ∧
      ∀ e ∈ m.output, e.category ≠ .Operator := by
  refine ⟨_, rfl, ?_, ?_⟩ <;> decide

/-- C14. With the string `"a` pending from the previous line, the line `;b"` first writes a
delimiter record for `;` and only then the string literal, whose lexeme `"ab"` lacks the `;`;
and the line `" x`, whose first character is a double quote, writes nothing and leaves the
string pending, the quote having been stored as text. -/
theorem pending_string_not_first :
    ∃ m1 m2 m3,
      tokenize_line Machine.init ('\"' :: "a".toList) = .ok m1 ∧
      m1.output = [] ∧ m1.string_flag = 1 ∧ cstr m1.buffer_multi = '\"' :: "a".toList ∧
      tokenize_line m1 ";b\"".toList = .ok m2 ∧
      m2.output = [⟨";".toList, .Delimiter⟩, ⟨"\"ab\"".toList, .StringLiteral⟩] ∧
      tokenize_line m1 "\" x".toList = .ok m3 ∧
      m3.output = [] ∧ m3.string_flag = 1 ∧ cstr m3.buffer_multi = "\"a\" x".toList := by
  refine ⟨_, _, _, rfl, ?_, ?_, ?_, rfl, ?_, rfl, ?_, ?_, ?_⟩ <;> decide

/-- C17. On the line `x =`, whose last character is the one-character operator `=`, the
operator branch compares the array `op = {'=', '\0', '\0'}`, which `is_operator` accepts as the
spelling `=` of length one, and moves the index by two, behind the terminating NUL of the
line. -/
theorem operator_at_end_overruns :
    tokenize_line Machine.init "x =".toList = .error .line_overrun ∧
    operatorBranch Machine.init "=".toList = .error .line_overrun ∧
    is_operator ['=', '\x00', '\x00'] = true ∧ cstr ['=', '\x00', '\x00'] = ['='] ∧
    tokenize_line Machine.init "*".toList = .error .line_overrun := by
  refine ⟨?_, ?_, ?_, ?_, ?_⟩ <;> rfl

/-! ## Overlap of the numeric predicates -/

theorem is_integer_no_dot {s : List Char} (h : '\x00' ∉ s) (hi : is_integer s = true) :
    '.' ∉ s := by
  have hnd : isdigit '.' = false := by decide
  cases s with
  | nil => simp
  | cons c cs =>
    have hc : c ≠ '\x00' := fun e => h (by simp [e])
    have hcs : '\x00' ∉ cs := fun e => h (by simp [e])
    by_cases hsign : c = '+' ∨ c = '-'
    · rw [is_integer_sign cs hsign] at hi
      split_ifs at hi
      rw [is_integer_loop_iff hcs] at hi
      intro hmem
      rcases List.mem_cons.mp hmem with e | e
      · rcases hsign with rfl | rfl <;> exact absurd e (by decide)
      · have := hi _ e
        rw [hnd] at this
        exact absurd this (by simp)
    · rw [is_integer_nosign cs hsign hc, is_integer_loop_iff h] at hi
      intro hmem
      have := hi _ hmem
      rw [hnd] at this
      exact absurd this (by simp)

theorem is_real_number_has_dot {s : List Char} (h : '\x00' ∉ s)
    (hr : is_real_number s = true) : '.' ∈ s := by
  simp only [is_real_number] at hr
  split_ifs at hr
  · have ht : '\x00' ∉ s.tail := fun e => h (List.mem_of_mem_tail e)
    rw [is_real_number_loop_iff ht] at hr
    have : 0 < s.tail.count '.' := by omega
    exact List.mem_of_mem_tail (List.count_pos_iff.mp this)
  · rw [is_real_number_loop_iff h] at hr
    have : 0 < s.count '.' := by omega
    exact List.count_pos_iff.mp this

theorem is_hex_octal_no_dot {s : List Char} (h : '\x00' ∉ s) (hh : is_hex_octal s = true) :
    '.' ∉ s := by
  intro hmem
  rcases (is_hex_octal_accepts s h).mp hh with ⟨digits, hs | hs, hall⟩ | ⟨digits, hs, hall⟩
  · subst hs
    simp only [List.mem_cons] at hmem
    rcases hmem with e | e | e
    · exact absurd e (by decide)
    · exact absurd e (by decide)
    · exact absurd (hall _ e) (by decide)
  · subst hs
    simp only [List.mem_cons] at hmem
    rcases hmem with e | e | e
    · exact absurd e (by decide)
    · exact absurd e (by decide)
    · exact absurd (hall _ e) (by decide)
  · subst hs
    simp only [List.mem_cons] at hmem
    rcases hmem with e | e
    · exact absurd e (by decide)
    · exact absurd (hall _ e) (by decide)

/-- C12 as stated fails: `is_integer` and `is_hex_octal` both accept `"017"`. -/
theorem integer_and_hex_octal_017 :
    is_integer "017".toList = true ∧ is_hex_octal "017".toList = true := by
  decide

/-- C12. For a lexeme `s`, `is_real_number s` excludes both `is_integer s` and
`is_hex_octal s`, while `is_integer s` and `is_hex_octal s` hold together exactly when `s` is a
`0` followed only by octal digits. -/
theorem numeric_predicates_overlap (s : List Char) (h : '\x00' ∉ s) :
    (is_real_number s = true → is_integer s = false ∧ is_hex_octal s = false) ∧
    ((is_integer s = true ∧ is_hex_octal s = true) ↔
      ∃ digits, s = '0' :: digits ∧ ∀ c ∈ digits, '0' ≤ c ∧ c ≤ '7') := by
  refine ⟨?_, ?_, ?_⟩
  · intro hr
    have hdot := is_real_number_has_dot h hr
    constructor
    · by_contra hi
      simp only [Bool.not_eq_false] at hi
      exact is_integer_no_dot h hi hdot
    · by_contra hh
      simp only [Bool.not_eq_false] at hh
      exact is_hex_octal_no_dot h hh hdot
  · rintro ⟨hi, hh⟩
    rcases (is_hex_octal_accepts s h).mp hh with ⟨digits, hs | hs, -⟩ | hoct
    · subst hs
      rw [is_integer_nosign _ (by decide) (by decide), is_integer_loop_iff h] at hi
      exact absurd (hi 'x' (by simp)) (by decide)
    · subst hs
      rw [is_integer_nosign _ (by decide) (by decide), is_integer_loop_iff h] at hi
      exact absurd (hi 'X' (by simp)) (by decide)
    · exact hoct
  · rintro ⟨digits, hs, hall⟩
    constructor
    · subst hs
      rw [is_integer_nosign _ (by decide) (by decide), is_integer_loop_iff h]
      intro c hc
      rcases List.mem_cons.mp hc with e | e
      · subst e; decide
      · have hc7 := hall c e
        rw [isdigit_iff]
        exact ⟨hc7.1, le_trans hc7.2 (by decide)⟩
    · exact (is_hex_octal_accepts s h).mpr (Or.inr ⟨digits, hs, hall⟩)

/-- The theorem `numeric_predicates_overlap` at the lexeme `"017"`. -/
theorem numeric_predicates_overlap_witness :
    '\x00' ∉ "017".toList ∧
    (is_real_number "017".toList = true →
      is_integer "017".toList = false ∧ is_hex_octal "017".toList = false) ∧
    ((is_integer "017".toList = true ∧ is_hex_octal "017".toList = true) ↔
      ∃ digits, "017".toList = '0' :: digits ∧ ∀ c ∈ digits, '0' ≤ c ∧ c ≤ '7') :=
  ⟨by decide, numeric_predicates_overlap "017".toList (by decide)⟩

/-! ## The branches of the scan loop -/

theorem char_le_iff (a b : Char) : a ≤ b ↔ a.toNat ≤ b.toNat := by
  rw [Char.le_def]
  exact Iff.rfl

/-- A property of the first 128 characters, checked on each of them. -/
theorem ascii_forall (P : Char → Prop) (h : ∀ n, n < 128 → P (Char.ofNat n)) (c : Char)
    (hc : c.toNat < 128) : P c := by
  rw [← Char.ofNat_toNat c]
  exact h _ hc

theorem letter_lt_128 {c : Char} (h : IsLetter c ∨ c = '_') : c.toNat < 128 := by
  have hz : 'z'.toNat = 122 := rfl
  have hZ : 'Z'.toNat = 90 := rfl
  rcases h with (h | h) | h
  · have := (char_le_iff _ _).mp h.2
    omega
  · have := (char_le_iff _ _).mp h.2
    omega
  · subst h
    decide

/-- A letter or an underscore is taken by none of the tests that precede the identifier
branch. -/
theorem letter_dispatch {c : Char} (h : IsLetter c ∨ c = '_') :
    isspace c = false ∧ is_delim [c, '\x00'] = false ∧ c ≠ '#' ∧ c ≠ '\"' ∧ c ≠ '/' ∧
      (isalpha c = true ∨ c = '_') ∧ (isalnum c || decide (c = '_')) = true := by
  have hall : ∀ n, n < 128 →
      ((('a' ≤ Char.ofNat n ∧ Char.ofNat n ≤ 'z') ∨ ('A' ≤ Char.ofNat n ∧ Char.ofNat n ≤ 'Z')) ∨
        Char.ofNat n = '_' →
      isspace (Char.ofNat n) = false ∧ is_delim [Char.ofNat n, '\x00'] = false ∧
        Char.ofNat n ≠ '#' ∧ Char.ofNat n ≠ '\"' ∧ Char.ofNat n ≠ '/' ∧
        (isalpha (Char.ofNat n) = true ∨ Char.ofNat n = '_') ∧
        (isalnum (Char.ofNat n) || decide (Char.ofNat n = '_')) = true) := by
    decide
  exact ascii_forall
    (fun c => (('a' ≤ c ∧ c ≤ 'z') ∨ ('A' ≤ c ∧ c ≤ 'Z')) ∨ c = '_' →
      isspace c = false ∧ is_delim [c, '\x00'] = false ∧ c ≠ '#' ∧ c ≠ '\"' ∧ c ≠ '/' ∧
        (isalpha c = true ∨ c = '_') ∧ (isalnum c || decide (c = '_')) = true)
    hall c (letter_lt_128 h) h

/-- With no continuation pending, a letter or an underscore leads to the identifier branch. -/
theorem step_letter (m : Machine) (line : List Char) (hs : m.string_flag = 0)
    (hm : m.multi_flag = 0) (hc : IsLetter (peek line) ∨ peek line = '_') :
    step m line = identifierBranch m line := by
  obtain ⟨h1, h2, h3, h4, h5, h6, -⟩ := letter_dispatch hc
  simp [step, h1, h2, h3, h4, h5, h6, hs, hm]

/-- What a bounded copy loop leaves: the characters copied and the rest make up the line, the
characters copied satisfy the condition and fit the room, and the loop stopped because the room
was used up, the line was exhausted or the next character fails the condition. -/
theorem copyBounded_spec (cond : Char → Bool) (room : Nat) (line : List Char) :
    line = (copyBounded cond room line).1 ++ (copyBounded cond room line).2 ∧
    (copyBounded cond room line).1.length ≤ room ∧
    (∀ c ∈ (copyBounded cond room line).1, cond c = true) ∧
    ((copyBounded cond room line).1.length = room ∨ (copyBounded cond room line).2 = [] ∨
      cond (peek (copyBounded cond room line).2) = false) := by
  induction room generalizing line with
  | zero => simp [copyBounded]
  | succ k ih =>
    cases line with
    | nil => simp [copyBounded]
    | cons c cs =>
      by_cases hc : cond c = true
      · obtain ⟨h1, h2, h3, h4⟩ := ih cs
        simp only [copyBounded, hc, if_true, List.cons_append, List.length_cons,
          List.mem_cons, forall_eq_or_imp]
        refine ⟨by rw [← h1], by omega, ⟨trivial, h3⟩, ?_⟩
        rcases h4 with h4 | h4 | h4
        · exact Or.inl (by omega)
        · exact Or.inr (Or.inl h4)
        · exact Or.inr (Or.inr h4)
      · simp only [Bool.not_eq_true] at hc
        simp [copyBounded, hc, peek]

/-- A loop `for (...; str[i] != '\0'; i++)` over characters that all pass its test returns 1. -/
theorem allUntilNul_of_forall (ok : Char → Bool) (s : List Char) (h : ∀ c ∈ s, ok c = true) :
    allUntilNul ok s = true := by
  induction s with
  | nil => rfl
  | cons c cs ih =>
    have hc := h c (by simp)
    have := ih (fun d hd => h d (by simp [hd]))
    simp [allUntilNul, hc, this]

theorem isalnum_iff (c : Char) :
    (isalnum c || decide (c = '_')) = true ↔ IsLetter c ∨ ('0' ≤ c ∧ c ≤ '9') ∨ c = '_' := by
  simp only [isalnum, Bool.or_eq_true, isalpha_iff, isdigit_iff, decide_eq_true_eq, or_assoc]

/-- C15. With no continuation pending and a letter or an underscore under the scan position,
the turn of the loop copies a token that is the longest run of letters, digits and underscores
from that position, up to 999 characters; the token satisfies `is_identifier`; and exactly one
record is written for it, a keyword when the token is one of the 32 entries of `keywords` and
an identifier otherwise, with the counter of that kind incremented.  The scan continues
behind the token. -/
theorem identifier_branch_emits (m : Machine) (line : List Char)
    (hs : m.string_flag = 0) (hm : m.multi_flag = 0)
    (hc : IsLetter (peek line) ∨ peek line = '_') :
    ∃ token rest,
      line = token ++ rest ∧ token ≠ [] ∧ token.length ≤ 999 ∧
      (∀ c ∈ token, IsLetter c ∨ ('0' ≤ c ∧ c ≤ '9') ∨ c = '_') ∧
      (token.length = 999 ∨
        ¬(IsLetter (peek rest) ∨ ('0' ≤ peek rest ∧ peek rest ≤ '9') ∨ peek rest = '_')) ∧
      is_identifier token = true ∧
      (is_keyword token = true ↔ String.mk token ∈ keywords) ∧ keywords.length = 32 ∧
      ∃ m', step m line = .ok (.resume m' rest) ∧
        m'.output = m.output ++
          [⟨token, if String.mk token ∈ keywords then .Keyword else .Identifier⟩] ∧
        m'.token_stats = (if String.mk token ∈ keywords
          then { m.token_stats with keyword := int_incr m.token_stats.keyword }
          else { m.token_stats with identifiers := int_incr m.token_stats.identifiers }) := by
  obtain ⟨h1, h2, h3, h4⟩ :=
    copyBounded_spec (fun c => isalnum c || decide (c = '_')) 999 line
  obtain ⟨-, -, -, -, -, hfirst, hcond⟩ := letter_dispatch hc
  generalize htok : (copyBounded (fun c => isalnum c || decide (c = '_')) 999 line).1 = token
    at h1 h2 h3 h4
  generalize hrest : (copyBounded (fun c => isalnum c || decide (c = '_')) 999 line).2 = rest
    at h1 h4
  -- the token starts with the character under the scan position
  have hne : token ≠ [] := by
    cases line with
    | nil => exact absurd hfirst (by simp only [peek]; decide)
    | cons c cs =>
      simp only [peek] at hcond
      simp only [copyBounded, hcond, if_true] at htok
      rw [← htok]; simp
  have hpeek : peek token = peek line := by
    cases token with
    | nil => exact absurd rfl hne
    | cons t ts => rw [h1]; rfl
  have hnul : '\x00' ∉ token := by
    intro hmem
    exact absurd (h3 _ hmem) (by decide)
  have hident : is_identifier token = true := by
    cases token with
    | nil => exact absurd rfl hne
    | cons t ts =>
      have hpeek' : t = peek line := hpeek
      rw [← hpeek'] at hfirst
      have hloop : allUntilNul (fun c => isalnum c || decide (c = '_')) ts = true :=
        allUntilNul_of_forall _ ts (fun d hd => h3 d (by simp [hd]))
      rcases hfirst with e | e <;> simp [is_identifier, peek, e, hloop]
  have hkw : is_keyword token = true ↔ String.mk token ∈ keywords :=
    any_strcmp_iff keywords token hnul (by decide)
  refine ⟨token, rest, h1, hne, h2, fun c hcm => (isalnum_iff c).mp (h3 c hcm), ?_, hident,
    hkw, by decide, ?_⟩
  · rcases h4 with h4 | h4 | h4
    · exact Or.inl h4
    · right
      rw [h4]
      simp only [peek, IsLetter]
      decide
    · right
      intro hh
      rw [(isalnum_iff _).mpr hh] at h4
      exact absurd h4 (by simp)
  · rw [step_letter m line hs hm hc]
    simp only [identifierBranch, htok, hrest]
    by_cases hk : is_keyword token = true
    · have hk' := hkw.mp hk
      simp only [hk, hk', if_true]
      exact ⟨_, rfl, rfl, rfl⟩
    · have hk' : ¬ String.mk token ∈ keywords := fun e => hk (hkw.mpr e)
      simp only [hk, hk', hident, if_true, if_false]
      exact ⟨_, rfl, rfl, rfl⟩

/-- The theorem `identifier_branch_emits` at the initial state and the line `while (x)`. -/
theorem identifier_branch_emits_witness :
    Machine.init.string_flag = 0 ∧ Machine.init.multi_flag = 0 ∧
    (IsLetter (peek "while (x)".toList) ∨ peek "while (x)".toList = '_') ∧
    ∃ token rest,
      "while (x)".toList = token ++ rest ∧ token ≠ [] ∧ token.length ≤ 999 ∧
      (∀ c ∈ token, IsLetter c ∨ ('0' ≤ c ∧ c ≤ '9') ∨ c = '_') ∧
      (token.length = 999 ∨
        ¬(IsLetter (peek rest) ∨ ('0' ≤ peek rest ∧ peek rest ≤ '9') ∨ peek rest = '_')) ∧
      is_identifier token = true ∧
      (is_keyword token = true ↔ String.mk token ∈ keywords) ∧ keywords.length = 32 ∧
      ∃ m', step Machine.init "while (x)".toList = .ok (.resume m' rest) ∧
        m'.output = Machine.init.output ++
          [⟨token, if String.mk token ∈ keywords then .Keyword else .Identifier⟩] ∧
        m'.token_stats = (if String.mk token ∈ keywords
          then { Machine.init.token_stats with keyword := int_incr Machine.init.token_stats.keyword }
          else { Machine.init.token_stats with
                 identifiers := int_incr Machine.init.token_stats.identifiers }) :=
  ⟨rfl, rfl, Or.inl (Or.inl (by decide)),
    identifier_branch_emits Machine.init "while (x)".toList rfl rfl (Or.inl (Or.inl (by decide)))⟩

/-- The copy loop of the `#` branch takes the whole rest of a line that fits the room. -/
theorem copyBounded_all (room : Nat) (line : List Char) (h0 : '\x00' ∉ line)
    (hlen : line.length ≤ room) :
    copyBounded (fun c => decide (c ≠ '\x00')) room line = (line, []) := by
  induction room generalizing line with
  | zero =>
    have : line = [] := List.length_eq_zero.mp (Nat.le_zero.mp hlen)
    subst this
    rfl
  | succ k ih =>
    cases line with
    | nil => rfl
    | cons c cs =>
      have hc : c ≠ '\x00' := fun e => h0 (by simp [e])
      have hcs : '\x00' ∉ cs := fun e => h0 (by simp [e])
      have hk : cs.length ≤ k := by simp only [List.length_cons] at hlen; omega
      have hd : decide (c ≠ '\x00') = true := by simp [hc]
      have ih' := ih cs hcs hk
      simp only [copyBounded, hd, if_true, ih']

/-- C18. On a line of fewer than 1000 characters, once the scan position is at a `#` the scan
of the line ends in one turn: the remainder `rem` of the line from that `#` is the lexeme; when
`is_pre_processor` accepts it, one preprocessor-directive record with that lexeme is written
and the counter `preprocessor` alone is incremented; otherwise nothing is written and no
counter changes.  In both cases the statics are left as they were. -/
theorem preprocessor_rest_of_line (m : Machine) (pre rem : List Char) (fuel : Nat)
    (hlen : (pre ++ rem).length < 1000) (h0 : '\x00' ∉ rem) (hp : peek rem = '#') :
    tokenize_line.loop (fuel + 2) m rem =
      .ok (if is_pre_processor rem = true then
            { m with
              output := m.output ++ [⟨rem, .PreprocessorDirective⟩],
              token_stats :=
                { m.token_stats with preprocessor := int_incr m.token_stats.preprocessor } }
          else m) := by
  cases rem with
  | nil => exact absurd hp (by simp only [peek]; decide)
  | cons c cs =>
    simp only [peek] at hp
    subst hp
    have hcs : '\x00' ∉ cs := fun e => h0 (by simp [e])
    have hk : cs.length ≤ 998 := by
      simp only [List.length_append, List.length_cons] at hlen
      omega
    have h1 : isspace '#' = false := by decide
    have h2 : is_delim ['#', '\x00'] = false := by decide
    have hstep : step m ('#' :: cs) = preprocessorBranch m ('#' :: cs) := by
      simp [step, peek, h1, h2]
    have hbranch : preprocessorBranch m ('#' :: cs) =
        .ok (.resume (if is_pre_processor ('#' :: cs) = true then
            { m with
              output := m.output ++ [⟨'#' :: cs, .PreprocessorDirective⟩],
              token_stats :=
                { m.token_stats with preprocessor := int_incr m.token_stats.preprocessor } }
          else m) []) := by
      simp only [preprocessorBranch, List.tail_cons, peek, copyBounded_all 998 cs hcs hk,
        Machine.fprintf]
      split_ifs <;> rfl
    have hnz : ¬ peek ('#' :: cs) = '\x00' := by simp only [peek]; decide
    rw [tokenize_line.loop]
    simp only [hnz, if_false, hstep, hbranch]
    rw [tokenize_line.loop]
    simp [peek]

/-- The theorem `preprocessor_rest_of_line` on the line `  #define N 10` at the `#`. -/
theorem preprocessor_rest_of_line_witness :
    ("  ".toList ++ "#define N 10".toList).length < 1000 ∧ '\x00' ∉ "#define N 10".toList ∧
    peek "#define N 10".toList = '#' ∧
    tokenize_line.loop (0 + 2) Machine.init "#define N 10".toList =
      .ok (if is_pre_processor "#define N 10".toList = true then
            { Machine.init with
              output := Machine.init.output ++ [⟨"#define N 10".toList, .PreprocessorDirective⟩],
              token_stats :=
                { Machine.init.token_stats with
                  preprocessor := int_incr Machine.init.token_stats.preprocessor } }
          else Machine.init) :=
  ⟨by decide, by decide, rfl,
    preprocessor_rest_of_line Machine.init "  ".toList "#define N 10".toList 0
      (by decide) (by decide) rfl⟩

/-! ## What the order of the tests gives the records -/

theorem ordered_append {out : List TokenEvent} (h : ∀ e ∈ out, e.Ordered) (e : TokenEvent)
    (he : e.Ordered) : ∀ x ∈ out ++ [e], x.Ordered := by
  intro x hx
  rcases List.mem_append.mp hx with hx | hx
  · exact h x hx
  · rw [List.mem_singleton.mp hx]; exact he

theorem ordered_of_category (lexeme : List Char) (category : TokenCategory)
    (h1 : category ≠ .HexOctal) (h2 : category ≠ .Operator) :
    TokenEvent.Ordered ⟨lexeme, category⟩ :=
  ⟨fun e => absurd e h1, fun e => absurd e h2⟩

theorem preprocessorBranch_ordered {m : Machine} {line : List Char} {n : Next}
    (h : ∀ e ∈ m.output, e.Ordered) (hn : preprocessorBranch m line = .ok n) :
    ∀ e ∈ n.machine.output, e.Ordered := by
  simp only [preprocessorBranch] at hn
  split_ifs at hn
  all_goals simp only [Except.ok.injEq] at hn
  all_goals subst hn
  all_goals simp only [Next.machine, Machine.fprintf]
  all_goals first
    | exact h
    | exact ordered_append h _ (ordered_of_category _ _ (by decide) (by decide))

theorem identifierBranch_ordered {m : Machine} {line : List Char} {n : Next}
    (h : ∀ e ∈ m.output, e.Ordered) (hn : identifierBranch m line = .ok n) :
    ∀ e ∈ n.machine.output, e.Ordered := by
  simp only [identifierBranch] at hn
  split_ifs at hn
  all_goals simp only [Except.ok.injEq] at hn
  all_goals subst hn
  all_goals simp only [Next.machine, Machine.fprintf]
  all_goals first
    | exact h
    | exact ordered_append h _ (ordered_of_category _ _ (by decide) (by decide))

theorem lineCommentBranch_ordered {m : Machine} {line : List Char} {n : Next}
    (h : ∀ e ∈ m.output, e.Ordered) (hn : lineCommentBranch m line = .ok n) :
    ∀ e ∈ n.machine.output, e.Ordered := by
  simp only [lineCommentBranch] at hn
  split_ifs at hn
  all_goals simp only [Except.ok.injEq] at hn
  all_goals subst hn
  all_goals simp only [Next.machine, Machine.fprintf]
  all_goals first
    | exact h
    | exact ordered_append h _ (ordered_of_category _ _ (by decide) (by decide))

theorem stringBranch_ordered {m : Machine} {line : List Char} {n : Next}
    (h : ∀ e ∈ m.output, e.Ordered) (hn : stringBranch m line = .ok n) :
    ∀ e ∈ n.machine.output, e.Ordered := by
  simp only [stringBranch] at hn
  split_ifs at hn
  · split at hn
    · exact absurd hn (by simp)
    · simp only [Except.ok.injEq] at hn
      subst hn
      exact h
  · split at hn
    · exact absurd hn (by simp)
    · simp only [Except.ok.injEq] at hn
      subst hn
      exact ordered_append h _ (ordered_of_category _ _ (by decide) (by decide))

theorem commentBranch_ordered {m : Machine} {line : List Char} {n : Next}
    (h : ∀ e ∈ m.output, e.Ordered) (hn : commentBranch m line = .ok n) :
    ∀ e ∈ n.machine.output, e.Ordered := by
  simp only [commentBranch] at hn
  split_ifs at hn
  · split at hn
    · exact absurd hn (by simp)
    · simp only [Except.ok.injEq] at hn
      subst hn
      exact h
  · split at hn
    · exact absurd hn (by simp)
    · simp only [Except.ok.injEq] at hn
      subst hn
      exact ordered_append h _ (ordered_of_category _ _ (by decide) (by decide))

theorem numberBranch_ordered {m : Machine} {line : List Char} {n : Next}
    (h : ∀ e ∈ m.output, e.Ordered) (hn : numberBranch m line = .ok n) :
    ∀ e ∈ n.machine.output, e.Ordered := by
  simp only [numberBranch] at hn
  split_ifs at hn with h1 h2 h3
  all_goals simp only [Except.ok.injEq] at hn
  all_goals subst hn
  all_goals simp only [Next.machine, Machine.fprintf]
  · exact ordered_append h _ (ordered_of_category _ _ (by decide) (by decide))
  · exact ordered_append h _ (ordered_of_category _ _ (by decide) (by decide))
  · refine ordered_append h _ ⟨fun _ => ⟨h3, ?_⟩, fun e =>
      absurd (show TokenCategory.HexOctal = TokenCategory.Operator from e) (by decide)⟩
    simpa using h2
  · exact h

/-- The string printed for the array `op` starts with `op[0]`, or is empty. -/
theorem peek_cstr_op (c d : Char) (h1 : c ≠ '+') (h2 : c ≠ '-') :
    peek (cstr [c, d, '\x00']) ≠ '+' ∧ peek (cstr [c, d, '\x00']) ≠ '-' := by
  by_cases hc : c = '\x00'
  · subst hc
    simp only [cstr, if_true, peek]
    decide
  · simp only [cstr, hc, if_false, peek]
    exact ⟨h1, h2⟩

theorem operatorBranch_ordered {m : Machine} {line : List Char} {n : Next}
    (h : ∀ e ∈ m.output, e.Ordered) (h1 : peek line ≠ '+') (h2 : peek line ≠ '-')
    (hn : operatorBranch m line = .ok n) : ∀ e ∈ n.machine.output, e.Ordered := by
  simp only [operatorBranch, unknownBranch] at hn
  split_ifs at hn
  · split at hn
    · exact absurd hn (by simp)
    · simp only [Except.ok.injEq] at hn
      subst hn
      exact ordered_append h _
        ⟨fun e => absurd (show TokenCategory.Operator = TokenCategory.HexOctal from e) (by decide),
          fun _ => peek_cstr_op _ _ h1 h2⟩
  · simp only [Except.ok.injEq] at hn
    subst hn
    exact ordered_append h _
      ⟨fun e => absurd (show TokenCategory.Operator = TokenCategory.HexOctal from e) (by decide),
          fun _ => peek_cstr_op _ _ h1 h2⟩
  · simp only [Except.ok.injEq] at hn
    subst hn
    exact ordered_append h _ (ordered_of_category _ _ (by decide) (by decide))
  · simp only [Except.ok.injEq] at hn
    subst hn
    exact ordered_append h _ (ordered_of_category _ _ (by decide) (by decide))

/-- A turn of the scan loop writes only records that respect the order of its tests. -/
theorem step_ordered {m : Machine} {line : List Char} {n : Next}
    (h : ∀ e ∈ m.output, e.Ordered) (hn : step m line = .ok n) :
    ∀ e ∈ n.machine.output, e.Ordered := by
  simp only [step] at hn
  split_ifs at hn with h1 h2 h3 h4 h5 h6 h7 h8 h9
  · simp only [Except.ok.injEq] at hn
    subst hn
    exact h
  · simp only [delimBranch, Except.ok.injEq] at hn
    subst hn
    exact ordered_append h _ (ordered_of_category _ _ (by decide) (by decide))
  · exact preprocessorBranch_ordered h hn
  · exact stringBranch_ordered h hn
  · exact commentBranch_ordered h hn
  · exact lineCommentBranch_ordered h hn
  · exact identifierBranch_ordered h hn
  · exact numberBranch_ordered h hn
  · simp only [charLiteralBranch, Except.ok.injEq] at hn
    subst hn
    exact ordered_append h _ (ordered_of_category _ _ (by decide) (by decide))
  · simp only [not_or] at h8
    exact operatorBranch_ordered h h8.2.1 h8.2.2 hn

theorem loop_ordered (fuel : Nat) {m n : Machine} {line : List Char}
    (h : ∀ e ∈ m.output, e.Ordered) (hn : tokenize_line.loop fuel m line = .ok n) :
    ∀ e ∈ n.output, e.Ordered := by
  induction fuel generalizing m line with
  | zero => simp [tokenize_line.loop] at hn
  | succ k ih =>
    unfold tokenize_line.loop at hn
    split_ifs at hn
    · simp only [Except.ok.injEq] at hn
      subst hn
      exact h
    · split at hn
      · exact absurd hn (by simp)
      · rename_i m1 hstep
        simp only [Except.ok.injEq] at hn
        subst hn
        exact step_ordered h hstep
      · rename_i m1 rest hstep
        exact ih (step_ordered h hstep) hn

theorem scan_ordered (lines : List (List Char)) {m n : Machine}
    (h : ∀ e ∈ m.output, e.Ordered) (hn : scan m lines = .ok n) :
    ∀ e ∈ n.output, e.Ordered := by
  induction lines generalizing m with
  | nil =>
    simp only [scan, Except.ok.injEq] at hn
    subst hn
    exact h
  | cons line lines ih =>
    unfold scan at hn
    split at hn
    · exact absurd hn (by simp)
    · rename_i m1 hline
      exact ih (loop_ordered _ h hline) hn

/-- The octal loop of `is_hex_octal` accepts only what the loop of `is_integer` accepts. -/
theorem is_integer_loop_of_octal (s : List Char)
    (h : allUntilNul (fun c => !decide (c < '0' ∨ c > '7')) s = true) :
    is_integer.loop s = true := by
  induction s with
  | nil => rfl
  | cons c cs ih =>
    by_cases hc : c = '\x00'
    · simp [is_integer.loop, hc]
    · simp only [allUntilNul, hc, if_false] at h
      split_ifs at h with hok
      have hok' : '0' ≤ c ∧ c ≤ '7' := by simpa [not_or, not_lt] using hok
      have hd : isdigit c = true := by
        rw [isdigit_iff]
        exact ⟨hok'.1, le_trans hok'.2 (by decide)⟩
      simp [is_integer.loop, hc, hd, ih h]

/-- A string that `is_hex_octal` accepts and `is_integer` rejects starts with `0x` or `0X`. -/
theorem hex_prefix_of_not_integer (s : List Char) (hh : is_hex_octal s = true)
    (hi : is_integer s = false) :
    ∃ rest, s = '0' :: 'x' :: rest ∨ s = '0' :: 'X' :: rest := by
  cases s with
  | nil => exact absurd hh (by decide)
  | cons c cs =>
    simp only [is_hex_octal, peek] at hh
    split_ifs at hh with h1 h2 h3
    · cases cs with
      | nil => exact absurd h2.2 (by simp only [List.tail_cons, peek]; decide)
      | cons d ds =>
        simp only [List.tail_cons, peek] at h2
        obtain ⟨hc, hd⟩ := h2
        subst hc
        rcases hd with rfl | rfl
        · exact ⟨ds, Or.inl rfl⟩
        · exact ⟨ds, Or.inr rfl⟩
    · subst h3
      have hloop := is_integer_loop_of_octal cs (by simpa using hh)
      have hint : is_integer ('0' :: cs) = true := by
        rw [is_integer_nosign cs (by decide) (by decide)]
        have hd : isdigit '0' = true := by decide
        simp [is_integer.loop, hd, hloop]
      rw [hint] at hi
      exact absurd hi (by simp)

/-- The number branch on a token that is a `0` followed only by octal digits: an integer
record. -/
theorem numberBranch_octal (m : Machine) (line : List Char) (digits : List Char)
    (htok : numberToken line = '0' :: digits) (h0 : '\x00' ∉ digits)
    (hoct : ∀ c ∈ digits, '0' ≤ c ∧ c ≤ '7') :
    ∃ m' rest, numberBranch m line = .ok (.resume m' rest) ∧
      m'.output = m.output ++ [⟨'0' :: digits, .Integer⟩] := by
  have hnul : '\x00' ∉ '0' :: digits := by
    intro hmem
    rcases List.mem_cons.mp hmem with e | e
    · exact absurd e (by decide)
    · exact h0 e
  have hint : is_integer ('0' :: digits) = true := by
    rw [is_integer_nosign _ (by decide) (by decide), is_integer_loop_iff hnul]
    intro c hc
    rcases List.mem_cons.mp hc with e | e
    · subst e; decide
    · have hc7 := hoct c e
      rw [isdigit_iff]
      exact ⟨hc7.1, le_trans hc7.2 (by decide)⟩
  have hreal : is_real_number ('0' :: digits) = false := by
    by_contra hr
    simp only [Bool.not_eq_false] at hr
    exact is_integer_no_dot hnul hint (is_real_number_has_dot hnul hr)
  simp only [numberToken] at htok
  simp only [numberBranch, htok, hreal, hint, if_true, Bool.false_eq_true, if_false]
  exact ⟨_, _, rfl, rfl⟩

/-- C19. After any sequence of lines scanned from the initial state without fault, every
hex-or-octal record has a lexeme that `is_integer` rejects and that starts with `0x` or `0X`.
A lexeme made of `0` followed only by octal digits is accepted both by `is_hex_octal` and by
`is_integer`, is never the lexeme of a hex-or-octal record, and the number branch writes it as
an integer record; so do the lines `017` and `0`. -/
theorem hex_octal_events (lines : List (List Char)) (m : Machine)
    (h : scan Machine.init lines = .ok m) :
    (∀ e ∈ m.output, e.category = .HexOctal →
      is_integer e.lexeme = false ∧
        ∃ rest, e.lexeme = '0' :: 'x' :: rest ∨ e.lexeme = '0' :: 'X' :: rest) ∧
    (∀ digits, '\x00' ∉ digits → (∀ c ∈ digits, '0' ≤ c ∧ c ≤ '7') →
      is_hex_octal ('0' :: digits) = true ∧ is_integer ('0' :: digits) = true ∧
      (∀ e ∈ m.output, e.lexeme = '0' :: digits → e.category ≠ .HexOctal) ∧
      ∀ m0 line, numberToken line = '0' :: digits →
        ∃ m' rest, numberBranch m0 line = .ok (.resume m' rest) ∧
          m'.output = m0.output ++ [⟨'0' :: digits, .Integer⟩]) ∧
    (∃ m1, tokenize_line Machine.init "017".toList = .ok m1 ∧
      m1.output = [⟨"017".toList, .Integer⟩]) ∧
    (∃ m2, tokenize_line Machine.init "0".toList = .ok m2 ∧
      m2.output = [⟨"0".toList, .Integer⟩]) := by
  have hord := scan_ordered lines (m := Machine.init) (by intro e he; cases he) h
  have hhex : ∀ e ∈ m.output, e.category = .HexOctal →
      is_integer e.lexeme = false ∧
        ∃ rest, e.lexeme = '0' :: 'x' :: rest ∨ e.lexeme = '0' :: 'X' :: rest := by
    intro e he hcat
    obtain ⟨h1, h2⟩ := (hord e he).1 hcat
    exact ⟨h2, hex_prefix_of_not_integer e.lexeme h1 h2⟩
  refine ⟨hhex, ?_, ⟨_, rfl, by decide⟩, ⟨_, rfl, by decide⟩⟩
  intro digits h0 hoct
  have hnul : '\x00' ∉ '0' :: digits := by
    intro hmem
    rcases List.mem_cons.mp hmem with e | e
    · exact absurd e (by decide)
    · exact h0 e
  have hint : is_integer ('0' :: digits) = true := by
    rw [is_integer_nosign _ (by decide) (by decide), is_integer_loop_iff hnul]
    intro c hc
    rcases List.mem_cons.mp hc with e | e
    · subst e; decide
    · have hc7 := hoct c e
      rw [isdigit_iff]
      exact ⟨hc7.1, le_trans hc7.2 (by decide)⟩
  refine ⟨(is_hex_octal_accepts _ hnul).mpr (Or.inr ⟨digits, rfl, hoct⟩), hint, ?_, ?_⟩
  · intro e he hlex hcat
    have := (hhex e he hcat).1
    rw [hlex, hint] at this
    exact absurd this (by simp)
  · intro m0 line htok
    exact numberBranch_octal m0 line digits htok h0 hoct

/-- The theorem `hex_octal_events` on the line `0x1F 017`. -/
theorem hex_octal_events_witness :
    ∃ m, scan Machine.init ["0x1F 017".toList] = .ok m ∧
      (∀ e ∈ m.output, e.category = .HexOctal →
        is_integer e.lexeme = false ∧
          ∃ rest, e.lexeme = '0' :: 'x' :: rest ∨ e.lexeme = '0' :: 'X' :: rest) ∧
      m.output = [⟨"0x1F".toList, .HexOctal⟩, ⟨"017".toList, .Integer⟩] :=
  ⟨_, rfl, (hex_octal_events ["0x1F 017".toList] _ rfl).1, by decide⟩

/-- With no continuation pending, a sign leads to the number branch. -/
theorem step_sign (m : Machine) (line : List Char) (hs : m.string_flag = 0)
    (hm : m.multi_flag = 0) (hc : peek line = '+' ∨ peek line = '-') :
    step m line = numberBranch m line := by
  have a1 : isspace '+' = false := by decide
  have a2 : is_delim ['+', '\x00'] = false := by decide
  have a3 : isalpha '+' = false := by decide
  have b1 : isspace '-' = false := by decide
  have b2 : is_delim ['-', '\x00'] = false := by decide
  have b3 : isalpha '-' = false := by decide
  rcases hc with hc | hc <;> simp [step, hc, hs, hm, a1, a2, a3, b1, b2, b3]

/-- The number branch on a token that is neither a real number nor an integer and starts with
a sign: nothing is written. -/
theorem numberBranch_sign_dropped (m : Machine) (line : List Char)
    (hc : peek line = '+' ∨ peek line = '-')
    (hr : is_real_number (numberToken line) = false)
    (hi : is_integer (numberToken line) = false) :
    ∃ rest, numberBranch m line = .ok (.resume m rest) := by
  have hcons : ∀ (c : Char) (t : List Char), c ≠ '0' → is_hex_octal (c :: t) = false := by
    intro c t hne
    simp [is_hex_octal, peek, hne]
  have hh : is_hex_octal (numberToken line) = false := by
    rcases hc with hc | hc
    · simp only [numberToken, hc]
      exact hcons _ _ (by decide)
    · simp only [numberToken, hc]
      exact hcons _ _ (by decide)
  simp only [numberToken] at hr hi hh
  simp only [numberBranch, hr, hi, hh, Bool.false_eq_true, if_false]
  exact ⟨_, rfl⟩

/-- C20. After any sequence of lines scanned from the initial state without fault, no operator
record has a lexeme that begins with `+` or `-`; in particular none has one of the spellings
`+`, `-`, `++`, `--`, `+=`, `-=`, `->`, all of which `is_operator` accepts.  With no
continuation pending a sign under the scan position leads to the number branch, and when the
token copied there is neither a real number nor an integer the turn writes nothing and changes
no counter.  The line `i++` writes the identifier `i` and nothing else. -/
theorem no_signed_operator (lines : List (List Char)) (m : Machine)
    (h : scan Machine.init lines = .ok m) :
    (∀ e ∈ m.output, e.category = .Operator →
      peek e.lexeme ≠ '+' ∧ peek e.lexeme ≠ '-' ∧
      e.lexeme ∉ ["+", "-", "++", "--", "+=", "-=", "->"].map String.toList) ∧
    (∀ o ∈ ["+", "-", "++", "--", "+=", "-=", "->"], is_operator (String.toList o) = true) ∧
    (∀ (m0 : Machine) (line : List Char), m0.string_flag = 0 → m0.multi_flag = 0 →
      (peek line = '+' ∨ peek line = '-') →
      step m0 line = numberBranch m0 line ∧
      (is_real_number (numberToken line) = false → is_integer (numberToken line) = false →
        ∃ rest, step m0 line = .ok (.resume m0 rest))) ∧
    (∃ m1, tokenize_line Machine.init "i++".toList = .ok m1 ∧
      m1.output = [⟨"i".toList, .Identifier⟩]) := by
  have hord := scan_ordered lines (m := Machine.init) (by intro e he; cases he) h
  refine ⟨?_, by decide, ?_, ⟨_, rfl, by decide⟩⟩
  · intro e he hcat
    obtain ⟨h1, h2⟩ := (hord e he).2 hcat
    refine ⟨h1, h2, ?_⟩
    intro hmem
    have hsign : ∀ l ∈ ["+", "-", "++", "--", "+=", "-=", "->"].map String.toList,
        peek l = '+' ∨ peek l = '-' := by decide
    rcases hsign _ hmem with e1 | e1
    · exact h1 e1
    · exact h2 e1
  · intro m0 line hs hm hc
    refine ⟨step_sign m0 line hs hm hc, ?_⟩
    intro hr hi
    rw [step_sign m0 line hs hm hc]
    exact numberBranch_sign_dropped m0 line hc hr hi

/-- The theorem `no_signed_operator` on the line `p->q = -x * 2;`. -/
theorem no_signed_operator_witness :
    ∃ m, scan Machine.init ["p->q = -x * 2;".toList] = .ok m ∧
      (∀ e ∈ m.output, e.category = .Operator →
        peek e.lexeme ≠ '+' ∧ peek e.lexeme ≠ '-' ∧
        e.lexeme ∉ ["+", "-", "++", "--", "+=", "-=", "->"].map String.toList) ∧
      m.output = [⟨"p".toList, .Identifier⟩, ⟨">".toList, .Operator⟩,
        ⟨"q".toList, .Identifier⟩, ⟨"=".toList, .Operator⟩, ⟨"*".toList, .Operator⟩,
        ⟨"2".toList, .Integer⟩, ⟨";".toList, .Delimiter⟩] :=
  ⟨_, rfl, (no_signed_operator ["p->q = -x * 2;".toList] _ rfl).1, by decide⟩

end Lexer
